import Mathlib

/-!
# p1toinfluxdb: the DSMR P1 telegram parser

A shallow embedding of `main.go` (`Parser.Parse`, `getObisReference`, `GetValue`) and
theorems about it.

Modelling decisions.

* A Go `string` is a Lean `String`, read through its character list `s.data`.  The serial
  port is opened with 7 data bits, so every byte that reaches `Parse` is an ASCII
  character; for such strings bytes and characters coincide, `len(s) == 0` is
  `s.data.length = 0` and `s[0]` is the first character.
* `regexp.FindStringSubmatch` is a leftmost-first backtracking matcher (`search`), the
  semantics the Go documentation gives for `regexp`.  The two patterns of the program are
  sequences of single characters and greedy repetitions of character classes around one
  capture group, which is the instruction set `Inst`.
* A `float64` is modelled by the exact rational number its decimal text denotes.  The
  program stores the nearest binary64 to that number, which is a function of it, so every
  equality proved here also holds of the stored values; no theorem relies on the rational
  being the stored number itself.  The one error `strconv.ParseFloat` can report for the
  captured text, a number beyond the binary64 range, is modelled.
* An index out of range is a run-time panic: `index` returns `Except.error`, and `Parse`,
  `getObisReference` and `GetValue` live in `Except Panic`.
* The sink `p.influxdb` is a function from an insert call to its optional error.  `Parse`
  returns the new parser state and the trace of the sink calls and of the errors it
  logged.  The informational `log.Printf` lines are not part of the trace.
-/

namespace P1

/-! ## Go runtime -/

/-- A run-time panic of the Go program. -/
inductive Panic where
  | indexOutOfRange
  deriving DecidableEq, Repr

/-- Go `xs[i]`: panics when `i` is out of range. -/
def index {α : Type} : List α → Nat → Except Panic α
  | [], _ => .error .indexOutOfRange
  | x :: _, 0 => .ok x
  | _ :: xs, i + 1 => index xs i

/-- Go `len(s)` compared with zero: the string has no byte, that is no character. -/
def len (s : String) : Nat := s.data.length

/-- The model of a `float64`.  A value of the program is represented by the exact
rational its decimal text denotes, and the program holds the binary64 nearest to that
rational: rounding, and underflow to zero, are not modelled.  An equation between two
values proved here therefore holds of the values of the program, while the rational
itself is the value of the program only up to that rounding. -/
abbrev Float64 := ℚ

/-! ## Regular expressions (package `regexp`) -/

/-- Character classes used by the two patterns. -/
inductive Cls where
  /-- `\d`: an ASCII digit. -/
  | digit
  /-- `.`: any character but the newline. -/
  | dot
  /-- A literal character, such as `-`, `:` or an escaped `\.`, `\(`. -/
  | lit (c : Char)
  /-- A bracket expression such as `[\*\)]`. -/
  | oneOf (cs : List Char)
  deriving DecidableEq, Repr

/-- Does the character belong to the class? -/
def Cls.test : Cls → Char → Bool
  | .digit, c => c.isDigit
  | .dot, c => c != '\n'
  | .lit a, c => c == a
  | .oneOf cs, c => cs.contains c

/-- One element of a pattern: a character, a greedy repetition, or a bracket of the
capture group. -/
inductive Inst where
  /-- Exactly one character of the class. -/
  | one (k : Cls)
  /-- `k*`, greedy. -/
  | star (k : Cls)
  /-- `k+`, greedy. -/
  | plus (k : Cls)
  /-- The opening bracket of capture group 1. -/
  | capOpen
  /-- The closing bracket of capture group 1. -/
  | capClose
  deriving DecidableEq, Repr

/-- The state a successful match ends in: the input left after the match and the input
as it stood at the two brackets of the capture group. -/
structure MatchEnd where
  rest : List Char
  capStart : Option (List Char)
  capEnd : Option (List Char)
  deriving DecidableEq, Repr

/-- Greedy repetition: consume one more character of the class when that leads to a
match, otherwise go on with the continuation from here. -/
def greedy {β : Type} (k : Cls) (cont : List Char → Option β) : List Char → Option β
  | [] => cont []
  | c :: cs =>
    if k.test c then
      match greedy k cont cs with
      | some r => some r
      | none => cont (c :: cs)
    else cont (c :: cs)

/-- Match the pattern at the head of the input, with backtracking in priority order. -/
def exec : List Inst → List Char → Option (List Char) → Option (List Char) → Option MatchEnd
  | [], s, o, c => some ⟨s, o, c⟩
  | .one k :: is, s, o, c =>
    match s with
    | x :: xs => if k.test x then exec is xs o c else none
    | [] => none
  | .star k :: is, s, o, c => greedy k (fun t => exec is t o c) s
  | .plus k :: is, s, o, c =>
    match s with
    | x :: xs => if k.test x then greedy k (fun t => exec is t o c) xs else none
    | [] => none
  | .capOpen :: is, s, _, c => exec is s (some s) c
  | .capClose :: is, s, o, _ => exec is s o (some s)

/-- The text between two positions of the input, each given by the input left there. -/
def between (start stop : List Char) : String :=
  ⟨start.take (start.length - stop.length)⟩

/-- The text of the capture group; the empty string when the group took no part. -/
def capture (m : MatchEnd) : String :=
  match m.capStart, m.capEnd with
  | some a, some b => between a b
  | _, _ => ""

/-- Unanchored search: the match at the leftmost position that has one. -/
def search (re : List Inst) : List Char → Option (String × String)
  | [] =>
    match exec re [] none none with
    | some m => some (between [] m.rest, capture m)
    | none => none
  | c :: cs =>
    match exec re (c :: cs) none none with
    | some m => some (between (c :: cs) m.rest, capture m)
    | none => search re cs

/-- Go `(*Regexp).FindStringSubmatch`: the whole match and the text of group 1, or the nil
slice when there is no match. -/
def FindStringSubmatch (re : List Inst) (s : String) : List String :=
  match search re s.data with
  | some (whole, g1) => [whole, g1]
  | none => []

/-! ## Number conversion (package `strconv`) -/

/-- The errors of `strconv.ParseFloat`. -/
inductive NumError where
  | ErrSyntax
  | ErrRange
  deriving DecidableEq, Repr

/-- The natural number written by a list of decimal digits. -/
def digitsValue (ds : List Char) : Nat :=
  ds.foldl (fun n c => 10 * n + (c.toNat - '0'.toNat)) 0

/-- Go `strconv.ParseFloat(s, 64)` on the numerals the value pattern can capture, digits,
a point, digits.  A number that rounds beyond the largest binary64, that is one of at
least `2^1024 - 2^970` (written with shifts below), is `ErrRange`.  Any other text is
reported as `ErrSyntax`; the program never passes one.  The value returned stands for the
binary64 nearest to it, which is what `strconv.ParseFloat` returns. -/
def ParseFloat (s : String) : Except NumError Float64 :=
  match s.data.span Char.isDigit with
  | (ip, '.' :: fp) =>
    if ip ≠ [] ∧ fp ≠ [] ∧ fp.all Char.isDigit = true then
      if ((1 <<< 1024) - (1 <<< 970)) * 10 ^ fp.length ≤ digitsValue (ip ++ fp) then
        .error .ErrRange
      else
        .ok ((digitsValue (ip ++ fp) : ℚ) / (10 ^ fp.length : ℚ))
    else .error .ErrSyntax
  | _ => .error .ErrSyntax

/-! ## The program -/

/-- Go `type P1Data struct`. -/
structure P1Data where
  Timestamp : String
  DeliveredToClientTariff1 : Float64
  DeliveredToClientTariff2 : Float64
  DeliveredByClientTariff1 : Float64
  DeliveredByClientTariff2 : Float64
  DeliveredToClientCurrent : Float64
  DeliveredByClientCurrent : Float64
  DeliveredToClientGas : Float64
  DeliveredToClientGasTimestamp : String
  deriving DecidableEq, Repr

/-- Go `type Parser struct`, without the sink handle `influxdb`, which is the `Handler`
argument of `Parse`. -/
structure Parser where
  obisReference : String
  data : P1Data
  deriving DecidableEq, Repr

/-- One call `p.influxdb.Insert(measurement, tags, fields)`; the two Go maps are written
as association lists in the order of the source. -/
structure InsertCall where
  measurement : String
  tags : List (String × String)
  fields : List (String × Float64)
  deriving DecidableEq, Repr

/-- The sink: what `Insert` returns for a call, `none` for a nil error. -/
abbrev Handler := InsertCall → Option String

/-- What `Parse` does to the outside world. -/
inductive Effect where
  /-- A call of `p.influxdb.Insert`. -/
  | insert (c : InsertCall)
  /-- The line `log.Printf(err.Error())` after a failed insert. -/
  | logError (msg : String)
  deriving DecidableEq, Repr

/-- The pattern of `getObisReference`, written `(\d+-\d+:\d+\.\d+\.\d+)\(` in Go. -/
def obisPattern : List Inst :=
  [.capOpen, .plus .digit, .one (.lit '-'), .plus .digit, .one (.lit ':'), .plus .digit,
   .one (.lit '.'), .plus .digit, .one (.lit '.'), .plus .digit, .capClose, .one (.lit '(')]

/-- The pattern of `GetValue`, written `.*\((\d+\.\d+)[\*\)]` in Go. -/
def valuePattern : List Inst :=
  [.star .dot, .one (.lit '('), .capOpen, .plus .digit, .one (.lit '.'), .plus .digit,
   .capClose, .one (.oneOf ['*', ')'])]

/-- Go `func getObisReference(s string) (string, bool)`. -/
def getObisReference (s : String) : Except Panic (String × Bool) := do
  let m := FindStringSubmatch obisPattern s
  if m.length > 1 then
    let id ← index m 1
    return (id, true)
  return ("", false)

/-- Go `func GetValue(s string) float64`. -/
def GetValue (s : String) : Except Panic Float64 := do
  let m := FindStringSubmatch valuePattern s
  if m.length ≠ 2 then
    return 0
  let g ← index m 1
  match ParseFloat g with
  | .ok f => return f
  | .error _ => return 0

/-- The Go zero value of `Parser`: what `&Parser{influxdb: ...}` in `main` starts from. -/
def Parser.fresh : Parser :=
  { obisReference := "", data := ⟨"", 0, 0, 0, 0, 0, 0, 0, ""⟩ }

/-- The `switch p.obisReference` of `Parse`: the field of the current OBIS code takes the
value of the line. -/
def updateField (p : Parser) (s : String) : Except Panic Parser :=
  if p.obisReference = "1-0:1.8.1" then do
    let v ← GetValue s
    return { p with data := { p.data with DeliveredToClientTariff1 := v } }
  else if p.obisReference = "1-0:1.8.2" then do
    let v ← GetValue s
    return { p with data := { p.data with DeliveredToClientTariff2 := v } }
  else if p.obisReference = "1-0:2.8.1" then do
    let v ← GetValue s
    return { p with data := { p.data with DeliveredByClientTariff1 := v } }
  else if p.obisReference = "1-0:2.8.2" then do
    let v ← GetValue s
    return { p with data := { p.data with DeliveredByClientTariff2 := v } }
  else if p.obisReference = "1-0:1.7.0" then do
    let v ← GetValue s
    return { p with data := { p.data with DeliveredToClientCurrent := v } }
  else if p.obisReference = "1-0:2.7.0" then do
    let v ← GetValue s
    return { p with data := { p.data with DeliveredByClientCurrent := v } }
  else if p.obisReference = "0-1:24.3.0" then do
    let v ← GetValue s
    return { p with data := { p.data with DeliveredToClientGas := v } }
  else
    return p

/-- The electricity call made at a terminator line. -/
def electricityCall (d : P1Data) : InsertCall :=
  { measurement := "electricity"
    tags := [("source", "dsmr"), ("metric", "kwh"), ("type", "electricity")]
    fields := [("delivered_low", d.DeliveredToClientTariff1),
               ("delivered_high", d.DeliveredToClientTariff2),
               ("returned_low", d.DeliveredByClientTariff1),
               ("returned_high", d.DeliveredByClientTariff2)] }

/-- The gas call made at a terminator line. -/
def gasCall (d : P1Data) : InsertCall :=
  { measurement := "gas"
    tags := [("source", "dsmr"), ("metric", "m2"), ("type", "gas")]
    fields := [("delivered", d.DeliveredToClientGas)] }

/-- One `err := p.influxdb.Insert(...)` with its `if err != nil` log line. -/
def doInsert (influxdb : Handler) (c : InsertCall) : List Effect :=
  match influxdb c with
  | some err => [.insert c, .logError err]
  | none => [.insert c]

/-- Go `func (p *Parser) Parse(s string)`. -/
def Parse (influxdb : Handler) (p : Parser) (s : String) :
    Except Panic (Parser × List Effect) := do
  if len s = 0 then
    return (p, [])
  let (id, hasID) ← getObisReference s
  let p := if hasID then { p with obisReference := id } else p
  let p ← updateField p s
  let c ← index s.data 0
  if c = '!' then
    return (p, doInsert influxdb (electricityCall p.data) ++ doInsert influxdb (gasCall p.data))
  return (p, [])

/-- The loop of `main` on a finite list of lines: `Parse` on each in turn, the traces
concatenated. -/
def feed (influxdb : Handler) : Parser → List String → Except Panic (Parser × List Effect)
  | p, [] => .ok (p, [])
  | p, s :: rest => do
    let (p1, t1) ← Parse influxdb p s
    let (p2, t2) ← feed influxdb p1 rest
    return (p2, t1 ++ t2)

/-- The sink calls of a trace, in order. -/
def inserts : List Effect → List InsertCall
  | [] => []
  | .insert c :: t => c :: inserts t
  | .logError _ :: t => inserts t

/-! ## Vocabulary of the statements -/

/-- The seven OBIS codes the `switch` of `Parse` has a case for. -/
def recognisedCodes : List String :=
  ["1-0:1.8.1", "1-0:1.8.2", "1-0:2.8.1", "1-0:2.8.2", "1-0:1.7.0", "1-0:2.7.0", "0-1:24.3.0"]

/-- The accumulator field that the `switch` case of code `c` assigns; `none` when the
`switch` has no case for `c`. -/
def fieldOf (c : String) (d : P1Data) : Option Float64 :=
  if c = "1-0:1.8.1" then some d.DeliveredToClientTariff1
  else if c = "1-0:1.8.2" then some d.DeliveredToClientTariff2
  else if c = "1-0:2.8.1" then some d.DeliveredByClientTariff1
  else if c = "1-0:2.8.2" then some d.DeliveredByClientTariff2
  else if c = "1-0:1.7.0" then some d.DeliveredToClientCurrent
  else if c = "1-0:2.7.0" then some d.DeliveredByClientCurrent
  else if c = "0-1:24.3.0" then some d.DeliveredToClientGas
  else none

/-- The accumulator with the field of code `c` holding `v` and every other field as in
`d`; `d` itself when the `switch` has no case for `c`. -/
def setField (c : String) (v : Float64) (d : P1Data) : P1Data :=
  if c = "1-0:1.8.1" then { d with DeliveredToClientTariff1 := v }
  else if c = "1-0:1.8.2" then { d with DeliveredToClientTariff2 := v }
  else if c = "1-0:2.8.1" then { d with DeliveredByClientTariff1 := v }
  else if c = "1-0:2.8.2" then { d with DeliveredByClientTariff2 := v }
  else if c = "1-0:1.7.0" then { d with DeliveredToClientCurrent := v }
  else if c = "1-0:2.7.0" then { d with DeliveredByClientCurrent := v }
  else if c = "0-1:24.3.0" then { d with DeliveredToClientGas := v }
  else d

/-- A sink that accepts every call. -/
def accepting : Handler := fun _ => none

/-! ## The patterns read as sets of texts -/

/-- The declarative reading of a pattern: the texts it matches. -/
def Matches : List Inst → List Char → Prop
  | [], w => w = []
  | .one k :: is, w => ∃ x v, w = x :: v ∧ k.test x = true ∧ Matches is v
  | .star k :: is, w => ∃ u v, w = u ++ v ∧ (∀ c ∈ u, k.test c = true) ∧ Matches is v
  | .plus k :: is, w =>
    ∃ x u v, w = x :: (u ++ v) ∧ k.test x = true ∧ (∀ c ∈ u, k.test c = true) ∧ Matches is v
  | .capOpen :: is, w => Matches is w
  | .capClose :: is, w => Matches is w

/-- The line contains a text the pattern matches. -/
def Occurs (re : List Inst) (s : List Char) : Prop :=
  ∃ pre w post, s = pre ++ (w ++ post) ∧ Matches re w

/-- A non-empty list of ASCII digits. -/
def IsDigits (d : List Char) : Prop := d ≠ [] ∧ ∀ c ∈ d, c.isDigit = true

instance (d : List Char) : Decidable (IsDigits d) := by
  unfold IsDigits
  infer_instance

/-- The line contains a decimal group for the value pattern: `(`, digits, a point,
digits, and then `*` or `)`. -/
def HasDecimal (s : List Char) : Prop :=
  ∃ pre d1 d2 x post, s = pre ++ '(' :: (d1 ++ '.' :: (d2 ++ x :: post)) ∧
    IsDigits d1 ∧ IsDigits d2 ∧ (x = '*' ∨ x = ')')

/-- The line contains an OBIS code for the code pattern: digits `-` digits `:` digits `.`
digits `.` digits, and then `(`. -/
def HasObisCode (s : List Char) : Prop :=
  ∃ pre a b c d e post,
    s = pre ++ (a ++ '-' :: (b ++ ':' :: (c ++ '.' :: (d ++ '.' :: (e ++ '(' :: post))))) ∧
    IsDigits a ∧ IsDigits b ∧ IsDigits c ∧ IsDigits d ∧ IsDigits e

/-! ## The loop as a list of assignments -/

/-- The OBIS code `getObisReference` finds in a line, if there is one. -/
def codeOf (s : String) : Option String :=
  match getObisReference s with
  | .ok (id, true) => some id
  | _ => none

/-- The value `GetValue` returns for a line. -/
def valueOf (s : String) : Float64 :=
  match GetValue s with
  | .ok v => v
  | .error _ => 0

/-- The OBIS context after a list of lines: the code of the most recent line that has one,
or the context held at the start when no line has one. -/
def finalContext (ctx : String) : List String → String
  | [] => ctx
  | s :: ls => finalContext ((codeOf s).getD ctx) ls

/-- The assignments a list of lines makes, in order: each non-empty line assigns its value
under the context it is processed in. -/
def assignments (ctx : String) : List String → List (String × Float64)
  | [] => []
  | s :: ls =>
    if s.data = [] then assignments ctx ls
    else ((codeOf s).getD ctx, valueOf s) :: assignments ((codeOf s).getD ctx) ls

/-- The accumulator after a list of assignments. -/
def assign : List (String × Float64) → P1Data → P1Data
  | [], d => d
  | a :: l, d => assign l (setField a.1 a.2 d)

/-- The value last assigned under the code `c`, if any. -/
def lastVal (c : String) : List (String × Float64) → Option Float64
  | [] => none
  | a :: l =>
    match lastVal c l with
    | some v => some v
    | none => if a.1 = c then some a.2 else none

/-! ## Numerals and codes as texts -/

/-- The number the decimal numeral `d1.d2` denotes. -/
def decimalValue (d1 d2 : List Char) : Float64 :=
  (digitsValue (d1 ++ d2) : ℚ) / (10 ^ d2.length : ℚ)

/-- The numeral `d1.d2` is within the binary64 range: it does not round beyond the largest
binary64, that is, it is less than `2^1024 - 2^970`. -/
def InRange (d1 d2 : List Char) : Prop :=
  digitsValue (d1 ++ d2) < ((1 <<< 1024) - (1 <<< 970)) * 10 ^ d2.length

instance (d1 d2 : List Char) : Decidable (InRange d1 d2) := by
  unfold InRange
  infer_instance

/-- The text of an OBIS code with five groups of digits: `a-b:c.d.e`. -/
def obisText (a b c d e : List Char) : List Char :=
  a ++ '-' :: (b ++ ':' :: (c ++ '.' :: (d ++ '.' :: e)))

/-- The input begins with an OBIS code followed by `(`. -/
def BeginsWithObisCode (l : List Char) : Prop :=
  ∃ a b c d e post, l = obisText a b c d e ++ '(' :: post ∧
    IsDigits a ∧ IsDigits b ∧ IsDigits c ∧ IsDigits d ∧ IsDigits e

/-- The end of `GetValue`: the float `strconv.ParseFloat` returned when it reported no
error, and zero when it reported one. -/
def orZero : Except NumError Float64 → Float64
  | .ok f => f
  | .error _ => 0

/-! ## Lemmas on the embedding -/

theorem index_cons_zero {α : Type} (x : α) (xs : List α) : index (x :: xs) 0 = .ok x := rfl

theorem index_pair_one {α : Type} (x y : α) : index [x, y] 1 = .ok y := rfl

/-- The slice `FindStringSubmatch` returns is nil or has the two entries. -/
theorem FindStringSubmatch_cases (re : List Inst) (s : String) :
    FindStringSubmatch re s = [] ∨ ∃ w g, FindStringSubmatch re s = [w, g] := by
  unfold FindStringSubmatch
  cases h : search re s.data with
  | none => exact Or.inl rfl
  | some m => exact Or.inr ⟨m.1, m.2, rfl⟩

/-- The function `getObisReference` never panics: it reports no code, or a code. -/
theorem getObisReference_cases (s : String) :
    getObisReference s = .ok ("", false) ∨ ∃ id, getObisReference s = .ok (id, true) := by
  rcases FindStringSubmatch_cases obisPattern s with h | ⟨w, g, h⟩
  · left
    simp [getObisReference, h, pure, Except.pure, bind, Except.bind]
  · right
    refine ⟨g, ?_⟩
    simp [getObisReference, h, index_pair_one, pure, Except.pure, bind, Except.bind]

/-- Without a match of the value pattern `GetValue` returns zero. -/
theorem GetValue_of_no_match (s : String) (h : FindStringSubmatch valuePattern s = []) :
    GetValue s = .ok 0 := by
  simp [GetValue, h, pure, Except.pure]

/-- The function `GetValue` never panics. -/
theorem GetValue_ok (s : String) : ∃ v, GetValue s = .ok v := by
  rcases FindStringSubmatch_cases valuePattern s with h | ⟨w, g, h⟩
  · exact ⟨0, GetValue_of_no_match s h⟩
  · cases hp : ParseFloat g with
    | ok f =>
      refine ⟨f, ?_⟩
      simp [GetValue, h, index_pair_one, hp, pure, Except.pure, bind, Except.bind]
    | error e =>
      refine ⟨0, ?_⟩
      simp [GetValue, h, index_pair_one, hp, pure, Except.pure, bind, Except.bind]

/-! ### Adequacy of the matcher -/

theorem greedy_some {β : Type} (k : Cls) (cont : List Char → Option β) (s : List Char) (r : β)
    (h : greedy k cont s = some r) :
    ∃ u t, s = u ++ t ∧ (∀ c ∈ u, k.test c = true) ∧ cont t = some r := by
  induction s with
  | nil => exact ⟨[], [], rfl, by simp, by simpa [greedy] using h⟩
  | cons a as ih =>
    unfold greedy at h
    by_cases ha : k.test a = true
    · simp only [ha, if_true] at h
      cases hg : greedy k cont as with
      | some r1 =>
        rw [hg] at h
        simp only [Option.some.injEq] at h
        subst h
        obtain ⟨u, t, e, hu, hc⟩ := ih hg
        refine ⟨a :: u, t, by simp [e], ?_, hc⟩
        intro c hc1
        rcases List.mem_cons.1 hc1 with rfl | hc1
        · exact ha
        · exact hu c hc1
      | none =>
        rw [hg] at h
        exact ⟨[], a :: as, rfl, by simp, h⟩
    · simp only [ha] at h
      exact ⟨[], a :: as, rfl, by simp, by simpa using h⟩

theorem greedy_isSome {β : Type} (k : Cls) (cont : List Char → Option β) (u t : List Char)
    (hu : ∀ c ∈ u, k.test c = true) (hc : (cont t).isSome = true) :
    (greedy k cont (u ++ t)).isSome = true := by
  induction u with
  | nil =>
    cases t with
    | nil => simpa [greedy] using hc
    | cons a as =>
      simp only [List.nil_append]
      unfold greedy
      by_cases ha : k.test a = true
      · simp only [ha, if_true]
        cases hg : greedy k cont as with
        | some r1 => simp
        | none => simpa using hc
      · simpa [ha] using hc
  | cons a as ih =>
    have ha : k.test a = true := hu a (List.mem_cons_self _ _)
    have := ih (fun c hc1 => hu c (List.mem_cons_of_mem _ hc1))
    simp only [List.cons_append]
    unfold greedy
    simp only [ha, if_true]
    cases hg : greedy k cont (as ++ t) with
    | some r1 => simp
    | none => simp [hg] at this

/-- Soundness of the matcher: what `exec` consumes is a text the pattern matches. -/
theorem exec_sound (re : List Inst) (s : List Char) (o c : Option (List Char)) (m : MatchEnd)
    (h : exec re s o c = some m) : ∃ w, s = w ++ m.rest ∧ Matches re w := by
  induction re generalizing s o c with
  | nil =>
    simp only [exec, Option.some.injEq] at h
    subst h
    exact ⟨[], rfl, rfl⟩
  | cons i is ih =>
    cases i with
    | one k =>
      cases s with
      | nil => simp [exec] at h
      | cons x xs =>
        by_cases hx : k.test x = true
        · simp only [exec, hx, if_true] at h
          obtain ⟨w, e, hw⟩ := ih xs o c h
          exact ⟨x :: w, by simp [e], x, w, rfl, hx, hw⟩
        · simp [exec, hx] at h
    | star k =>
      simp only [exec] at h
      obtain ⟨u, t, e, hu, hc⟩ := greedy_some k _ s m h
      obtain ⟨w, e1, hw⟩ := ih t o c hc
      exact ⟨u ++ w, by simp [e, e1], u, w, rfl, hu, hw⟩
    | plus k =>
      cases s with
      | nil => simp [exec] at h
      | cons x xs =>
        by_cases hx : k.test x = true
        · simp only [exec, hx, if_true] at h
          obtain ⟨u, t, e, hu, hc⟩ := greedy_some k _ xs m h
          obtain ⟨w, e1, hw⟩ := ih t o c hc
          exact ⟨x :: (u ++ w), by simp [e, e1], x, u, w, rfl, hx, hu, hw⟩
        · simp [exec, hx] at h
    | capOpen =>
      simp only [exec] at h
      exact ih s _ c h
    | capClose =>
      simp only [exec] at h
      exact ih s o _ h

/-- Completeness of the matcher: a text the pattern matches, at the head of the input,
makes `exec` succeed. -/
theorem exec_complete (re : List Inst) (w post : List Char) (o c : Option (List Char))
    (h : Matches re w) : (exec re (w ++ post) o c).isSome = true := by
  induction re generalizing w o c with
  | nil =>
    simp only [Matches] at h
    subst h
    simp [exec]
  | cons i is ih =>
    cases i with
    | one k =>
      obtain ⟨x, v, rfl, hx, hv⟩ := h
      simpa [exec, hx] using ih v o c hv
    | star k =>
      obtain ⟨u, v, rfl, hu, hv⟩ := h
      simp only [exec, List.append_assoc]
      exact greedy_isSome k _ u (v ++ post) hu (ih v o c hv)
    | plus k =>
      obtain ⟨x, u, v, rfl, hx, hu, hv⟩ := h
      simp only [exec, List.cons_append, List.append_assoc, hx, if_true]
      exact greedy_isSome k _ u (v ++ post) hu (ih v o c hv)
    | capOpen =>
      simp only [exec]
      exact ih w _ c h
    | capClose =>
      simp only [exec]
      exact ih w o _ h

/-- The search finds a match exactly when the line contains a text the pattern
matches. -/
theorem search_isSome_iff (re : List Inst) (s : List Char) :
    (search re s).isSome = true ↔ Occurs re s := by
  induction s with
  | nil =>
    unfold search
    constructor
    · intro h
      cases he : exec re [] none none with
      | none => simp [he] at h
      | some m =>
        obtain ⟨w, e, hw⟩ := exec_sound re [] none none m he
        exact ⟨[], w, m.rest, by simpa using e, hw⟩
    · rintro ⟨pre, w, post, e, hw⟩
      have e1 : pre = [] ∧ w = [] ∧ post = [] := by
        simpa [eq_comm] using e
      obtain ⟨-, rfl, rfl⟩ := e1
      have := exec_complete re [] [] none none hw
      cases he : exec re [] none none with
      | none => simp [he] at this
      | some m => simp
  | cons a as ih =>
    unfold search
    constructor
    · intro h
      cases he : exec re (a :: as) none none with
      | none =>
        simp only [he] at h
        obtain ⟨pre, w, post, e, hw⟩ := ih.1 h
        exact ⟨a :: pre, w, post, by simp [e], hw⟩
      | some m =>
        obtain ⟨w, e, hw⟩ := exec_sound re (a :: as) none none m he
        exact ⟨[], w, m.rest, by simpa using e, hw⟩
    · rintro ⟨pre, w, post, e, hw⟩
      cases he : exec re (a :: as) none none with
      | some m => simp
      | none =>
        simp only
        cases pre with
        | nil =>
          have := exec_complete re w post none none hw
          simp only [List.nil_append] at e
          rw [← e, he] at this
          simp at this
        | cons b pre1 =>
          simp only [List.cons_append, List.cons.injEq] at e
          exact ih.2 ⟨pre1, w, post, e.2, hw⟩

theorem Matches_nil (w : List Char) : Matches [] w ↔ w = [] := Iff.rfl

theorem Matches_one (k : Cls) (is : List Inst) (w : List Char) :
    Matches (.one k :: is) w ↔ ∃ x v, w = x :: v ∧ k.test x = true ∧ Matches is v := Iff.rfl

theorem Matches_capOpen (is : List Inst) (w : List Char) :
    Matches (.capOpen :: is) w ↔ Matches is w := Iff.rfl

theorem Matches_capClose (is : List Inst) (w : List Char) :
    Matches (.capClose :: is) w ↔ Matches is w := Iff.rfl

theorem Matches_star (k : Cls) (is : List Inst) (w : List Char) :
    Matches (.star k :: is) w ↔
      ∃ u v, w = u ++ v ∧ (∀ c ∈ u, k.test c = true) ∧ Matches is v := Iff.rfl

theorem Matches_plus_digit (is : List Inst) (w : List Char) :
    Matches (.plus .digit :: is) w ↔ ∃ d v, w = d ++ v ∧ IsDigits d ∧ Matches is v := by
  constructor
  · rintro ⟨x, u, v, rfl, hx, hu, hv⟩
    refine ⟨x :: u, v, rfl, ⟨by simp, ?_⟩, hv⟩
    intro c hc
    rcases List.mem_cons.1 hc with rfl | hc
    · exact hx
    · exact hu c hc
  · rintro ⟨d, v, rfl, ⟨hne, hd⟩, hv⟩
    cases d with
    | nil => exact absurd rfl hne
    | cons x u =>
      exact ⟨x, u, v, rfl, hd x (List.mem_cons_self _ _),
        fun c hc => hd c (List.mem_cons_of_mem _ hc), hv⟩

theorem Matches_lit (a : Char) (is : List Inst) (w : List Char) :
    Matches (.one (.lit a) :: is) w ↔ ∃ v, w = a :: v ∧ Matches is v := by
  constructor
  · rintro ⟨x, v, rfl, hx, hv⟩
    have : x = a := by simpa [Cls.test] using hx
    subst this
    exact ⟨v, rfl, hv⟩
  · rintro ⟨v, rfl, hv⟩
    exact ⟨a, v, rfl, by simp [Cls.test], hv⟩

/-- The value pattern occurs in a line exactly when the line has a decimal group. -/
theorem Occurs_valuePattern (s : List Char) : Occurs valuePattern s ↔ HasDecimal s := by
  unfold Occurs HasDecimal valuePattern
  constructor
  · rintro ⟨pre, w, post, rfl, hw⟩
    rw [Matches_star] at hw
    obtain ⟨u, v, rfl, -, hv⟩ := hw
    rw [Matches_lit] at hv
    obtain ⟨v, rfl, hv⟩ := hv
    rw [Matches_capOpen, Matches_plus_digit] at hv
    obtain ⟨d1, v, rfl, hd1, hv⟩ := hv
    rw [Matches_lit] at hv
    obtain ⟨v, rfl, hv⟩ := hv
    rw [Matches_plus_digit] at hv
    obtain ⟨d2, v, rfl, hd2, hv⟩ := hv
    rw [Matches_capClose, Matches_one] at hv
    obtain ⟨x, v, rfl, hx, hv⟩ := hv
    rw [Matches_nil] at hv
    subst hv
    refine ⟨pre ++ u, d1, d2, x, post, by simp, hd1, hd2, ?_⟩
    simpa [Cls.test] using hx
  · rintro ⟨pre, d1, d2, x, post, rfl, hd1, hd2, hx⟩
    refine ⟨pre, '(' :: (d1 ++ '.' :: (d2 ++ [x])), post, by simp, ?_⟩
    rw [Matches_star]
    refine ⟨[], _, rfl, by simp, ?_⟩
    rw [Matches_lit]
    refine ⟨_, rfl, ?_⟩
    rw [Matches_capOpen, Matches_plus_digit]
    refine ⟨d1, _, rfl, hd1, ?_⟩
    rw [Matches_lit]
    refine ⟨_, rfl, ?_⟩
    rw [Matches_plus_digit]
    refine ⟨d2, _, rfl, hd2, ?_⟩
    rw [Matches_capClose, Matches_one]
    refine ⟨x, [], rfl, ?_, rfl⟩
    rcases hx with rfl | rfl <;> simp [Cls.test]

/-- The code pattern occurs in a line exactly when the line has an OBIS code. -/
theorem Occurs_obisPattern (s : List Char) : Occurs obisPattern s ↔ HasObisCode s := by
  unfold Occurs HasObisCode obisPattern
  constructor
  · rintro ⟨pre, w, post, rfl, hw⟩
    rw [Matches_capOpen, Matches_plus_digit] at hw
    obtain ⟨a, v, rfl, ha, hw⟩ := hw
    rw [Matches_lit] at hw
    obtain ⟨v, rfl, hw⟩ := hw
    rw [Matches_plus_digit] at hw
    obtain ⟨b, v, rfl, hb, hw⟩ := hw
    rw [Matches_lit] at hw
    obtain ⟨v, rfl, hw⟩ := hw
    rw [Matches_plus_digit] at hw
    obtain ⟨c, v, rfl, hc, hw⟩ := hw
    rw [Matches_lit] at hw
    obtain ⟨v, rfl, hw⟩ := hw
    rw [Matches_plus_digit] at hw
    obtain ⟨d, v, rfl, hd, hw⟩ := hw
    rw [Matches_lit] at hw
    obtain ⟨v, rfl, hw⟩ := hw
    rw [Matches_plus_digit] at hw
    obtain ⟨e, v, rfl, he, hw⟩ := hw
    rw [Matches_capClose, Matches_lit] at hw
    obtain ⟨v, rfl, hw⟩ := hw
    rw [Matches_nil] at hw
    subst hw
    exact ⟨pre, a, b, c, d, e, post, by simp, ha, hb, hc, hd, he⟩
  · rintro ⟨pre, a, b, c, d, e, post, rfl, ha, hb, hc, hd, he⟩
    refine ⟨pre, a ++ '-' :: (b ++ ':' :: (c ++ '.' :: (d ++ '.' :: (e ++ ['('])))), post,
      by simp, ?_⟩
    rw [Matches_capOpen, Matches_plus_digit]
    refine ⟨a, _, rfl, ha, ?_⟩
    rw [Matches_lit]
    refine ⟨_, rfl, ?_⟩
    rw [Matches_plus_digit]
    refine ⟨b, _, rfl, hb, ?_⟩
    rw [Matches_lit]
    refine ⟨_, rfl, ?_⟩
    rw [Matches_plus_digit]
    refine ⟨c, _, rfl, hc, ?_⟩
    rw [Matches_lit]
    refine ⟨_, rfl, ?_⟩
    rw [Matches_plus_digit]
    refine ⟨d, _, rfl, hd, ?_⟩
    rw [Matches_lit]
    refine ⟨_, rfl, ?_⟩
    rw [Matches_plus_digit]
    refine ⟨e, _, rfl, he, ?_⟩
    rw [Matches_capClose, Matches_lit]
    exact ⟨_, rfl, rfl⟩

/-- The slice of `FindStringSubmatch` is nil exactly when the pattern occurs nowhere. -/
theorem FindStringSubmatch_nil_iff (re : List Inst) (s : String) :
    FindStringSubmatch re s = [] ↔ ¬ Occurs re s.data := by
  rw [← search_isSome_iff]
  unfold FindStringSubmatch
  cases search re s.data with
  | none => simp
  | some m => simp

/-- The value pattern finds nothing exactly in the lines without decimal group. -/
theorem valuePattern_no_match_iff (s : String) :
    FindStringSubmatch valuePattern s = [] ↔ ¬ HasDecimal s.data := by
  rw [FindStringSubmatch_nil_iff, Occurs_valuePattern]

/-- The function `getObisReference` reports no code exactly on the lines without OBIS
code. -/
theorem getObisReference_none_iff (s : String) :
    getObisReference s = .ok ("", false) ↔ ¬ HasObisCode s.data := by
  rw [← Occurs_obisPattern, ← FindStringSubmatch_nil_iff]
  rcases FindStringSubmatch_cases obisPattern s with h | ⟨w, g, h⟩
  · simp [getObisReference, h, pure, Except.pure, bind, Except.bind]
  · simp [getObisReference, h, index_pair_one, pure, Except.pure, bind, Except.bind]

/-! ### The parser -/

/-- The `switch` sets the field of the current code to the value of the line. -/
theorem updateField_eq (p : Parser) (s : String) (v : Float64) (hv : GetValue s = .ok v) :
    updateField p s = .ok { p with data := setField p.obisReference v p.data } := by
  unfold updateField setField
  simp only [hv, pure, Except.pure, bind, Except.bind]
  split_ifs <;> rfl

theorem inserts_append (a b : List Effect) : inserts (a ++ b) = inserts a ++ inserts b := by
  induction a with
  | nil => rfl
  | cons e t ih => cases e <;> simp [inserts, ih]

theorem inserts_doInsert (influxdb : Handler) (c : InsertCall) :
    inserts (doInsert influxdb c) = [c] := by
  unfold doInsert
  cases influxdb c <;> rfl

/-- The empty line: `Parse` returns at once. -/
theorem Parse_empty (influxdb : Handler) (p : Parser) (s : String) (h : s.data = []) :
    Parse influxdb p s = .ok (p, []) := by
  simp [Parse, len, h, pure, Except.pure]

/-- A non-empty line: the context moves to the code of the line when it has one, the
field of the context takes the value of the line, and a line that starts with `!` makes
the two sink calls. -/
theorem Parse_cons (influxdb : Handler) (p : Parser) (s : String) (c : Char) (cs : List Char)
    (id : String) (hasID : Bool) (v : Float64) (hs : s.data = c :: cs)
    (ho : getObisReference s = .ok (id, hasID)) (hv : GetValue s = .ok v) :
    Parse influxdb p s =
      .ok ({ obisReference := if hasID then id else p.obisReference,
             data := setField (if hasID then id else p.obisReference) v p.data },
           if c = '!' then
             doInsert influxdb (electricityCall
               (setField (if hasID then id else p.obisReference) v p.data)) ++
             doInsert influxdb (gasCall
               (setField (if hasID then id else p.obisReference) v p.data))
           else []) := by
  unfold Parse
  simp only [len, hs, ho, pure, Except.pure, bind, Except.bind, index_cons_zero]
  cases hasID
  · simp [updateField_eq _ s v hv]
    split_ifs <;> rfl
  · simp [updateField_eq _ s v hv]
    split_ifs <;> rfl

/-- The function `Parse` returns normally on every line. -/
theorem Parse_ok (influxdb : Handler) (p : Parser) (s : String) :
    ∃ q t, Parse influxdb p s = .ok (q, t) := by
  cases hs : s.data with
  | nil => exact ⟨p, [], Parse_empty influxdb p s hs⟩
  | cons c cs =>
    obtain ⟨v, hv⟩ := GetValue_ok s
    rcases getObisReference_cases s with ho | ⟨id, ho⟩
    · exact ⟨_, _, Parse_cons influxdb p s c cs "" false v hs ho hv⟩
    · exact ⟨_, _, Parse_cons influxdb p s c cs id true v hs ho hv⟩

theorem feed_cons_ok (influxdb : Handler) (p p1 p2 : Parser) (s : String) (rest : List String)
    (t1 t2 : List Effect) (h1 : Parse influxdb p s = .ok (p1, t1))
    (h2 : feed influxdb p1 rest = .ok (p2, t2)) :
    feed influxdb p (s :: rest) = .ok (p2, t1 ++ t2) := by
  simp [feed, h1, h2, pure, Except.pure, bind, Except.bind]

theorem feed_append_ok (influxdb : Handler) (a b : List String) (p p1 p2 : Parser)
    (t1 t2 : List Effect) (h1 : feed influxdb p a = .ok (p1, t1))
    (h2 : feed influxdb p1 b = .ok (p2, t2)) :
    feed influxdb p (a ++ b) = .ok (p2, t1 ++ t2) := by
  induction a generalizing p t1 with
  | nil =>
    simp only [feed, Except.ok.injEq, Prod.mk.injEq] at h1
    obtain ⟨rfl, rfl⟩ := h1
    simpa using h2
  | cons s rest ih =>
    obtain ⟨q, u, hq⟩ := Parse_ok influxdb p s
    cases hr : feed influxdb q rest with
    | error e => simp [feed, hq, hr, bind, Except.bind] at h1
    | ok r =>
      obtain ⟨q1, u1⟩ := r
      have h1' := feed_cons_ok influxdb p q q1 s rest u u1 hq hr
      rw [h1] at h1'
      simp only [Except.ok.injEq, Prod.mk.injEq] at h1'
      obtain ⟨rfl, rfl⟩ := h1'
      have := ih q u1 hr
      simpa [List.append_assoc] using feed_cons_ok influxdb p q p2 s (rest ++ b) u _ hq this

/-- The loop returns normally on every list of lines. -/
theorem feed_ok (influxdb : Handler) (ls : List String) (p : Parser) :
    ∃ q t, feed influxdb p ls = .ok (q, t) := by
  induction ls generalizing p with
  | nil => exact ⟨p, [], rfl⟩
  | cons s rest ih =>
    obtain ⟨q, u, hq⟩ := Parse_ok influxdb p s
    obtain ⟨q1, u1, hq1⟩ := ih q
    exact ⟨q1, u ++ u1, feed_cons_ok influxdb p q q1 s rest u u1 hq hq1⟩

theorem setField_of_not_mem (c : String) (v : Float64) (d : P1Data)
    (h : c ∉ recognisedCodes) : setField c v d = d := by
  simp only [recognisedCodes, List.mem_cons, List.mem_singleton, List.not_mem_nil, or_false,
    not_or] at h
  obtain ⟨h1, h2, h3, h4, h5, h6, h7⟩ := h
  simp [setField, h1, h2, h3, h4, h5, h6, h7]

theorem fieldOf_setField_self (c : String) (v : Float64) (d : P1Data)
    (h : c ∈ recognisedCodes) : fieldOf c (setField c v d) = some v := by
  simp only [recognisedCodes, List.mem_cons, List.mem_singleton, List.not_mem_nil,
    or_false] at h
  rcases h with h | h | h | h | h | h | h <;> subst h <;> simp [fieldOf, setField]

theorem fieldOf_setField_ne (c c1 : String) (v : Float64) (d : P1Data) (h : c1 ≠ c) :
    fieldOf c (setField c1 v d) = fieldOf c d := by
  unfold setField
  split_ifs with h1 h2 h3 h4 h5 h6 h7 <;> first
    | rfl
    | (subst c1; simp [fieldOf, Ne.symm h])

/-- A line processed while the context is not `c`, and that does not carry `c` itself,
leaves the context different from `c` and the field of `c` as it was. -/
theorem Parse_retains (influxdb : Handler) (c : String) (p q : Parser) (s : String)
    (t : List Effect) (hp : p.obisReference ≠ c) (hs : getObisReference s ≠ .ok (c, true))
    (h : Parse influxdb p s = .ok (q, t)) :
    q.obisReference ≠ c ∧ fieldOf c q.data = fieldOf c p.data := by
  cases hd : s.data with
  | nil =>
    rw [Parse_empty influxdb p s hd] at h
    simp only [Except.ok.injEq, Prod.mk.injEq] at h
    obtain ⟨rfl, -⟩ := h
    exact ⟨hp, rfl⟩
  | cons a as =>
    obtain ⟨v, hv⟩ := GetValue_ok s
    rcases getObisReference_cases s with ho | ⟨id, ho⟩
    · rw [Parse_cons influxdb p s a as "" false v hd ho hv] at h
      simp only [Except.ok.injEq, Prod.mk.injEq] at h
      obtain ⟨rfl, -⟩ := h
      exact ⟨by simpa using hp, by simpa using fieldOf_setField_ne c _ v p.data hp⟩
    · have hid : id ≠ c := by
        rintro rfl
        exact hs ho
      rw [Parse_cons influxdb p s a as id true v hd ho hv] at h
      simp only [Except.ok.injEq, Prod.mk.injEq] at h
      obtain ⟨rfl, -⟩ := h
      exact ⟨by simpa using hid, by simpa using fieldOf_setField_ne c _ v p.data hid⟩

/-- The retention invariant over a list of lines, none of which carries `c`. -/
theorem feed_retains (influxdb : Handler) (c : String) (ls : List String) (p q : Parser)
    (t : List Effect) (hp : p.obisReference ≠ c)
    (hs : ∀ x ∈ ls, getObisReference x ≠ .ok (c, true))
    (h : feed influxdb p ls = .ok (q, t)) :
    q.obisReference ≠ c ∧ fieldOf c q.data = fieldOf c p.data := by
  induction ls generalizing p t with
  | nil =>
    simp only [feed, Except.ok.injEq, Prod.mk.injEq] at h
    obtain ⟨rfl, -⟩ := h
    exact ⟨hp, rfl⟩
  | cons s rest ih =>
    obtain ⟨p1, t1, h1⟩ := Parse_ok influxdb p s
    obtain ⟨p2, t2, h2⟩ := feed_ok influxdb rest p1
    rw [feed_cons_ok influxdb p p1 p2 s rest t1 t2 h1 h2] at h
    simp only [Except.ok.injEq, Prod.mk.injEq] at h
    obtain ⟨rfl, -⟩ := h
    have a := Parse_retains influxdb c p p1 s t1 hp (hs s (List.mem_cons_self _ _)) h1
    have b := ih p1 t2 a.1 (fun x hx => hs x (List.mem_cons_of_mem _ hx)) h2
    exact ⟨b.1, b.2.trans a.2⟩

/-- A terminator line ends its trace with the two calls built from the accumulator that
`Parse` leaves. -/
theorem Parse_terminator (influxdb : Handler) (p q : Parser) (s : String) (t : List Effect)
    (hs : s.data.head? = some '!') (h : Parse influxdb p s = .ok (q, t)) :
    inserts t = [electricityCall q.data, gasCall q.data] := by
  cases hd : s.data with
  | nil => simp [hd] at hs
  | cons a as =>
    have ha : a = '!' := by simpa [hd] using hs
    subst ha
    obtain ⟨v, hv⟩ := GetValue_ok s
    rcases getObisReference_cases s with ho | ⟨id, ho⟩
    · rw [Parse_cons influxdb p s '!' as "" false v hd ho hv] at h
      simp only [Except.ok.injEq, Prod.mk.injEq] at h
      obtain ⟨rfl, rfl⟩ := h
      simp [inserts_append, inserts_doInsert]
    · rw [Parse_cons influxdb p s '!' as id true v hd ho hv] at h
      simp only [Except.ok.injEq, Prod.mk.injEq] at h
      obtain ⟨rfl, rfl⟩ := h
      simp [inserts_append, inserts_doInsert]

/-- A line in which `getObisReference` finds a code is not empty. -/
theorem data_cons_of_code (s c : String) (h : getObisReference s = .ok (c, true)) :
    ∃ a as, s.data = a :: as := by
  cases hd : s.data with
  | nil =>
    have e : s = "" := by cases s; simp_all
    subst e
    have : getObisReference "" = .ok ("", false) := by rfl
    rw [this] at h
    simp at h
  | cons a as => exact ⟨a, as, rfl⟩

/-- Under a context that is none of the seven codes, a line without OBIS code leaves the
parser as it is. -/
theorem Parse_inert (influxdb : Handler) (p : Parser) (s : String)
    (hp : p.obisReference ∉ recognisedCodes) (ho : getObisReference s = .ok ("", false)) :
    ∃ t, Parse influxdb p s = .ok (p, t) := by
  cases hd : s.data with
  | nil => exact ⟨[], Parse_empty influxdb p s hd⟩
  | cons a as =>
    obtain ⟨v, hv⟩ := GetValue_ok s
    have h := Parse_cons influxdb p s a as "" false v hd ho hv
    simp only [Bool.false_eq_true, if_false, setField_of_not_mem _ _ _ hp] at h
    exact ⟨_, h⟩

/-- A line that begins with one of the seven codes followed by `(` has that code as its
OBIS code, whatever follows. -/
theorem getObisReference_of_prefix (c : String) (rest : List Char) (hc : c ∈ recognisedCodes) :
    getObisReference ⟨c.data ++ '(' :: rest⟩ = .ok (c, true) := by
  simp only [recognisedCodes, List.mem_cons, List.mem_singleton, List.not_mem_nil,
    or_false] at hc
  rcases hc with h | h | h | h | h | h | h <;> subst h <;>
    simp [getObisReference, FindStringSubmatch, obisPattern, search, exec, greedy, Cls.test,
      index, capture, between, pure, Except.pure, bind, Except.bind]

/-- The sink calls of one `Parse`: the two calls, built from the accumulator it leaves, on
a line that begins with `!`, and none on any other line. -/
theorem Parse_inserts (influxdb : Handler) (p q : Parser) (s : String) (t : List Effect)
    (h : Parse influxdb p s = .ok (q, t)) :
    inserts t = if s.data.head? = some '!' then [electricityCall q.data, gasCall q.data]
      else [] := by
  by_cases hs : s.data.head? = some '!'
  · simpa [hs] using Parse_terminator influxdb p q s t hs h
  · cases hd : s.data with
    | nil =>
      rw [Parse_empty influxdb p s hd] at h
      simp only [Except.ok.injEq, Prod.mk.injEq] at h
      obtain ⟨-, rfl⟩ := h
      simp [inserts]
    | cons a as =>
      have ha : a ≠ '!' := by simpa [hd] using hs
      obtain ⟨v, hv⟩ := GetValue_ok s
      rcases getObisReference_cases s with ho | ⟨id, ho⟩
      · rw [Parse_cons influxdb p s a as "" false v hd ho hv] at h
        simp only [Except.ok.injEq, Prod.mk.injEq, ha, if_false] at h
        obtain ⟨-, rfl⟩ := h
        simp [inserts, ha]
      · rw [Parse_cons influxdb p s a as id true v hd ho hv] at h
        simp only [Except.ok.injEq, Prod.mk.injEq, ha, if_false] at h
        obtain ⟨-, rfl⟩ := h
        simp [inserts, ha]

/-- The parser state that `Parse` leaves does not depend on the sink. -/
theorem Parse_state_sink_independent (influxdb influxdb1 : Handler) (p q : Parser) (s : String)
    (t : List Effect) (h : Parse influxdb p s = .ok (q, t)) :
    ∃ t1, Parse influxdb1 p s = .ok (q, t1) := by
  cases hd : s.data with
  | nil =>
    rw [Parse_empty influxdb p s hd] at h
    simp only [Except.ok.injEq, Prod.mk.injEq] at h
    obtain ⟨rfl, -⟩ := h
    exact ⟨[], Parse_empty influxdb1 p s hd⟩
  | cons a as =>
    obtain ⟨v, hv⟩ := GetValue_ok s
    rcases getObisReference_cases s with ho | ⟨id, ho⟩
    · rw [Parse_cons influxdb p s a as "" false v hd ho hv] at h
      simp only [Except.ok.injEq, Prod.mk.injEq] at h
      obtain ⟨rfl, -⟩ := h
      exact ⟨_, Parse_cons influxdb1 p s a as "" false v hd ho hv⟩
    · rw [Parse_cons influxdb p s a as id true v hd ho hv] at h
      simp only [Except.ok.injEq, Prod.mk.injEq] at h
      obtain ⟨rfl, -⟩ := h
      exact ⟨_, Parse_cons influxdb1 p s a as id true v hd ho hv⟩

/-! ### The loop as a list of assignments -/

theorem codeOf_empty (s : String) (h : s.data = []) : codeOf s = none := by
  have e : s = "" := by cases s; simp_all
  subst e
  rfl

theorem codeOf_of_code (s c : String) (h : getObisReference s = .ok (c, true)) :
    codeOf s = some c := by
  simp [codeOf, h]

theorem codeOf_of_none (s : String) (h : getObisReference s = .ok ("", false)) :
    codeOf s = none := by
  simp [codeOf, h]

theorem valueOf_of_value (s : String) (v : Float64) (h : GetValue s = .ok v) :
    valueOf s = v := by
  simp [valueOf, h]

/-- One `Parse` in terms of `codeOf` and `valueOf`. -/
theorem Parse_step (influxdb : Handler) (p : Parser) (s : String) :
    ∃ t, Parse influxdb p s =
      .ok (if s.data = [] then p
           else { obisReference := (codeOf s).getD p.obisReference,
                  data := setField ((codeOf s).getD p.obisReference) (valueOf s) p.data }, t) := by
  cases hd : s.data with
  | nil => exact ⟨[], by simpa using Parse_empty influxdb p s hd⟩
  | cons a as =>
    obtain ⟨v, hv⟩ := GetValue_ok s
    rcases getObisReference_cases s with ho | ⟨id, ho⟩
    · refine ⟨_, (Parse_cons influxdb p s a as "" false v hd ho hv).trans
        (congrArg Except.ok (Prod.ext ?_ rfl))⟩
      simp [codeOf_of_none s ho, valueOf_of_value s v hv]
    · refine ⟨_, (Parse_cons influxdb p s a as id true v hd ho hv).trans
        (congrArg Except.ok (Prod.ext ?_ rfl))⟩
      simp [codeOf_of_code s id ho, valueOf_of_value s v hv]

/-- The loop in terms of `finalContext` and `assignments`. -/
theorem feed_eq (influxdb : Handler) (ls : List String) (p : Parser) :
    ∃ t, feed influxdb p ls =
      .ok ({ obisReference := finalContext p.obisReference ls,
             data := assign (assignments p.obisReference ls) p.data }, t) := by
  induction ls generalizing p with
  | nil => exact ⟨[], rfl⟩
  | cons s rest ih =>
    obtain ⟨t1, h1⟩ := Parse_step influxdb p s
    by_cases hd : s.data = []
    · simp only [hd, if_true] at h1
      obtain ⟨t2, h2⟩ := ih p
      refine ⟨t1 ++ t2, ?_⟩
      rw [feed_cons_ok influxdb p p _ s rest t1 t2 h1 h2]
      simp [finalContext, assignments, hd, codeOf_empty s hd]
    · simp only [hd, if_false] at h1
      obtain ⟨t2, h2⟩ := ih
        { obisReference := (codeOf s).getD p.obisReference,
          data := setField ((codeOf s).getD p.obisReference) (valueOf s) p.data }
      refine ⟨t1 ++ t2, ?_⟩
      rw [feed_cons_ok influxdb p _ _ s rest t1 t2 h1 h2]
      simp [finalContext, assignments, hd, assign]

theorem setField_Timestamp (c : String) (v : Float64) (d : P1Data) :
    (setField c v d).Timestamp = d.Timestamp ∧
    (setField c v d).DeliveredToClientGasTimestamp = d.DeliveredToClientGasTimestamp := by
  unfold setField
  split_ifs <;> exact ⟨rfl, rfl⟩

theorem assign_Timestamp (l : List (String × Float64)) (d : P1Data) :
    (assign l d).Timestamp = d.Timestamp ∧
    (assign l d).DeliveredToClientGasTimestamp = d.DeliveredToClientGasTimestamp := by
  induction l generalizing d with
  | nil => exact ⟨rfl, rfl⟩
  | cons a l ih =>
    have h1 := ih (setField a.1 a.2 d)
    have h2 := setField_Timestamp a.1 a.2 d
    exact ⟨h1.1.trans h2.1, h1.2.trans h2.2⟩

theorem fieldOf_setField (c c1 : String) (v : Float64) (d : P1Data)
    (hc : c ∈ recognisedCodes) :
    fieldOf c (setField c1 v d) = if c1 = c then some v else fieldOf c d := by
  by_cases h : c1 = c
  · subst h
    simpa using fieldOf_setField_self c1 v d hc
  · simpa [h] using fieldOf_setField_ne c c1 v d h

/-- A field after a list of assignments holds the value last assigned under its code, or
its former value when there is none. -/
theorem fieldOf_assign (c : String) (l : List (String × Float64)) (d : P1Data)
    (hc : c ∈ recognisedCodes) :
    fieldOf c (assign l d) = (match lastVal c l with
      | some v => some v
      | none => fieldOf c d) := by
  induction l generalizing d with
  | nil => rfl
  | cons a l ih =>
    simp only [assign, lastVal]
    rw [ih]
    cases lastVal c l with
    | some v => rfl
    | none =>
      simp only [fieldOf_setField c a.1 a.2 d hc]
      split_ifs <;> rfl

/-- Two accumulators with the same seven fields and the same timestamps are equal. -/
theorem P1Data_ext (d e : P1Data) (h : ∀ c ∈ recognisedCodes, fieldOf c d = fieldOf c e)
    (h1 : d.Timestamp = e.Timestamp)
    (h2 : d.DeliveredToClientGasTimestamp = e.DeliveredToClientGasTimestamp) : d = e := by
  have a1 := h "1-0:1.8.1" (by simp [recognisedCodes])
  have a2 := h "1-0:1.8.2" (by simp [recognisedCodes])
  have a3 := h "1-0:2.8.1" (by simp [recognisedCodes])
  have a4 := h "1-0:2.8.2" (by simp [recognisedCodes])
  have a5 := h "1-0:1.7.0" (by simp [recognisedCodes])
  have a6 := h "1-0:2.7.0" (by simp [recognisedCodes])
  have a7 := h "0-1:24.3.0" (by simp [recognisedCodes])
  cases d
  cases e
  simp [fieldOf] at a1 a2 a3 a4 a5 a6 a7 h1 h2
  simp [a1, a2, a3, a4, a5, a6, a7, h1, h2]

theorem lastVal_append (c : String) (x y : List (String × Float64)) :
    lastVal c (x ++ y) = (match lastVal c y with
      | some v => some v
      | none => lastVal c x) := by
  induction x with
  | nil =>
    simp only [List.nil_append, lastVal]
    cases lastVal c y <;> rfl
  | cons a x ih =>
    show lastVal c (a :: (x ++ y)) = _
    simp only [lastVal]
    rw [ih]
    cases lastVal c y <;> rfl

theorem lastVal_map_ne (c k : String) (vs : List Float64) (h : k ≠ c) :
    lastVal c (vs.map (fun v => (k, v))) = none := by
  induction vs with
  | nil => rfl
  | cons v vs ih => simp [lastVal, ih, h]

/-- Two runs of the same lines from two contexts make the same assignments, but for the
lines before the first line with a code, which are assigned under the starting context. -/
theorem assignments_two_contexts (ls : List String) (c c1 : String) :
    ∃ (P : List Float64) (R : List (String × Float64)),
      assignments c ls = P.map (fun v => (c, v)) ++ R ∧
      assignments c1 ls = P.map (fun v => (c1, v)) ++ R ∧
      (finalContext c1 ls = c1 ∨ finalContext c1 ls = finalContext c ls) := by
  induction ls with
  | nil => exact ⟨[], [], rfl, rfl, Or.inl rfl⟩
  | cons s rest ih =>
    by_cases hd : s.data = []
    · obtain ⟨P, R, h1, h2, h3⟩ := ih
      refine ⟨P, R, ?_, ?_, ?_⟩
      · simpa [assignments, hd] using h1
      · simpa [assignments, hd] using h2
      · simpa [finalContext, codeOf_empty s hd] using h3
    · cases hk : codeOf s with
      | none =>
        obtain ⟨P, R, h1, h2, h3⟩ := ih
        refine ⟨valueOf s :: P, R, ?_, ?_, ?_⟩
        · simp [assignments, hd, hk, h1]
        · simp [assignments, hd, hk, h2]
        · simpa [finalContext, hk] using h3
      | some k =>
        refine ⟨[], (k, valueOf s) :: assignments k rest, ?_, ?_, Or.inr ?_⟩
        · simp [assignments, hd, hk]
        · simp [assignments, hd, hk]
        · simp [finalContext, hk]

/-- The last assignment of a list of lines that ends with a non-empty line is made under
the final context. -/
theorem assignments_snoc (body : List String) (t : String) (c : String) (ht : t.data ≠ []) :
    ∃ init, assignments c (body ++ [t]) =
      init ++ [(finalContext c (body ++ [t]), valueOf t)] := by
  induction body generalizing c with
  | nil => exact ⟨[], by simp [assignments, finalContext, ht]⟩
  | cons s rest ih =>
    by_cases hd : s.data = []
    · obtain ⟨init, h⟩ := ih c
      exact ⟨init, by simpa [assignments, finalContext, hd, codeOf_empty s hd] using h⟩
    · obtain ⟨init, h⟩ := ih ((codeOf s).getD c)
      exact ⟨((codeOf s).getD c, valueOf s) :: init, by
        simp [assignments, finalContext, hd, h]⟩

/-- A list of lines that ends with a non-empty line, run a second time from the state the
first run ends in, ends in that state again. -/
theorem feed_twice (influxdb : Handler) (body : List String) (t : String) (p : Parser)
    (ht : t.data ≠ []) :
    ∃ q u1 u2, feed influxdb p (body ++ [t]) = .ok (q, u1) ∧
      feed influxdb q (body ++ [t]) = .ok (q, u2) := by
  obtain ⟨u1, h1⟩ := feed_eq influxdb (body ++ [t]) p
  obtain ⟨u2, h2⟩ := feed_eq influxdb (body ++ [t])
    { obisReference := finalContext p.obisReference (body ++ [t]),
      data := assign (assignments p.obisReference (body ++ [t])) p.data }
  refine ⟨_, u1, u2, h1, ?_⟩
  rw [h2]
  simp only [Except.ok.injEq, Prod.mk.injEq, and_true]
  obtain ⟨P, R, e0, e1, hf⟩ := assignments_two_contexts (body ++ [t]) p.obisReference
    (finalContext p.obisReference (body ++ [t]))
  obtain ⟨i0, l0⟩ := assignments_snoc body t p.obisReference ht
  obtain ⟨i1, l1⟩ := assignments_snoc body t (finalContext p.obisReference (body ++ [t])) ht
  have hctx : finalContext (finalContext p.obisReference (body ++ [t])) (body ++ [t]) =
      finalContext p.obisReference (body ++ [t]) := by
    rcases hf with h | h <;> exact h
  rw [hctx] at l1
  refine congrArg₂ Parser.mk hctx ?_
  · refine P1Data_ext _ _ ?_ ?_ ?_
    · intro c hc
      rw [fieldOf_assign c _ _ hc]
      cases hl : lastVal c (assignments (finalContext p.obisReference (body ++ [t]))
          (body ++ [t])) with
      | none => rfl
      | some v =>
        simp only
        rw [fieldOf_assign c _ _ hc]
        have : lastVal c (assignments p.obisReference (body ++ [t])) = some v := by
          by_cases hcf : finalContext p.obisReference (body ++ [t]) = c
          · rw [l1, lastVal_append] at hl
            rw [l0, lastVal_append]
            simpa [lastVal, hcf] using hl
          · rw [e1, lastVal_append, lastVal_map_ne c _ P hcf] at hl
            rw [e0, lastVal_append]
            cases hR : lastVal c R with
            | none => simp [hR] at hl
            | some w => simpa [hR] using hl
        rw [this]
    · exact (assign_Timestamp _ _).1
    · exact (assign_Timestamp _ _).2

/-- Lines that do not begin with `!` make no sink call. -/
theorem feed_no_terminator (influxdb : Handler) (ls : List String) (p q : Parser)
    (t : List Effect) (hls : ∀ s ∈ ls, s.data.head? ≠ some '!')
    (h : feed influxdb p ls = .ok (q, t)) : inserts t = [] := by
  induction ls generalizing p t with
  | nil =>
    simp only [feed, Except.ok.injEq, Prod.mk.injEq] at h
    obtain ⟨-, rfl⟩ := h
    rfl
  | cons s rest ih =>
    obtain ⟨p1, t1, h1⟩ := Parse_ok influxdb p s
    obtain ⟨p2, t2, h2⟩ := feed_ok influxdb rest p1
    rw [feed_cons_ok influxdb p p1 p2 s rest t1 t2 h1 h2] at h
    simp only [Except.ok.injEq, Prod.mk.injEq] at h
    obtain ⟨rfl, rfl⟩ := h
    have a := Parse_inserts influxdb p p1 s t1 h1
    simp only [hls s (List.mem_cons_self _ _), if_false] at a
    have b := ih p1 t2 (fun x hx => hls x (List.mem_cons_of_mem _ hx)) h2
    simp [inserts_append, a, b]

/-! ### What the matcher returns -/

theorem greedy_none {β : Type} (k : Cls) (cont : List Char → Option β) (t : List Char)
    (h : ∀ v w, t = v ++ w → (∀ c ∈ v, k.test c = true) → cont w = none) :
    greedy k cont t = none := by
  cases hg : greedy k cont t with
  | none => rfl
  | some r =>
    obtain ⟨u, w, e, hu, hc⟩ := greedy_some k cont t r hg
    rw [h u w e hu] at hc
    simp at hc

/-- The greedy repetition returns the match of the longest repetition that has one. -/
theorem greedy_last {β : Type} (k : Cls) (cont : List Char → Option β) (u t : List Char) (r : β)
    (hu : ∀ c ∈ u, k.test c = true) (hc : cont t = some r)
    (hl : ∀ v w, t = v ++ w → v ≠ [] → (∀ c ∈ v, k.test c = true) → cont w = none) :
    greedy k cont (u ++ t) = some r := by
  induction u with
  | nil =>
    cases t with
    | nil => simpa [greedy] using hc
    | cons a as =>
      simp only [List.nil_append]
      unfold greedy
      by_cases ha : k.test a = true
      · have hn : greedy k cont as = none := by
          refine greedy_none k cont as ?_
          intro v w e hv
          refine hl (a :: v) w (by simp [e]) (by simp) ?_
          intro c hc1
          rcases List.mem_cons.1 hc1 with rfl | hc1
          · exact ha
          · exact hv c hc1
        simp only [ha, if_true, hn]
        exact hc
      · simp only [ha]
        exact hc
  | cons a as ih =>
    have ha : k.test a = true := hu a (List.mem_cons_self _ _)
    have := ih (fun c hc1 => hu c (List.mem_cons_of_mem _ hc1))
    simp only [List.cons_append]
    unfold greedy
    simp only [ha, if_true, this]

/-- The same when the repetition cannot go further than `u`. -/
theorem greedy_max {β : Type} (k : Cls) (cont : List Char → Option β) (u t : List Char) (r : β)
    (hu : ∀ c ∈ u, k.test c = true) (ht : ∀ a as, t = a :: as → k.test a = false)
    (hc : cont t = some r) : greedy k cont (u ++ t) = some r := by
  refine greedy_last k cont u t r hu hc ?_
  intro v w e hv hvt
  cases v with
  | nil => exact absurd rfl hv
  | cons a as =>
    have h1 := ht a (as ++ w) (by simpa using e)
    have h2 := hvt a (List.mem_cons_self _ _)
    rw [h1] at h2
    simp at h2

theorem exec_lit (a : Char) (is : List Inst) (rest : List Char) (o c : Option (List Char)) :
    exec (.one (.lit a) :: is) (a :: rest) o c = exec is rest o c := by
  simp [exec, Cls.test]

theorem exec_star (k : Cls) (is : List Inst) (s : List Char) (o c : Option (List Char)) :
    exec (.star k :: is) s o c = greedy k (fun t => exec is t o c) s := rfl

theorem exec_capOpen (is : List Inst) (s : List Char) (o c : Option (List Char)) :
    exec (.capOpen :: is) s o c = exec is s (some s) c := rfl

theorem exec_capClose (is : List Inst) (s : List Char) (o c : Option (List Char)) :
    exec (.capClose :: is) s o c = exec is s o (some s) := rfl

theorem exec_plus_digits (is : List Inst) (d rest : List Char) (o c : Option (List Char))
    (m : MatchEnd) (hd : IsDigits d) (hr : ∀ a as, rest = a :: as → a.isDigit = false)
    (h : exec is rest o c = some m) : exec (.plus .digit :: is) (d ++ rest) o c = some m := by
  obtain ⟨hne, hall⟩ := hd
  cases d with
  | nil => exact absurd rfl hne
  | cons x u =>
    have hx : Cls.digit.test x = true := hall x (List.mem_cons_self _ _)
    simp only [List.cons_append, exec, hx, if_true]
    exact greedy_max .digit _ u rest m (fun c hc => hall c (List.mem_cons_of_mem _ hc))
      (fun a as e => hr a as e) h

theorem between_append (w r : List Char) : between (w ++ r) r = ⟨w⟩ := by
  simp [between]

theorem search_of_exec (re : List Inst) (s : List Char) (m : MatchEnd)
    (h : exec re s none none = some m) : search re s = some (between s m.rest, capture m) := by
  cases s with
  | nil => simp [search, h]
  | cons a as => simp [search, h]

theorem search_skip (re : List Inst) (pre rest : List Char)
    (h : ∀ p1 p2, pre = p1 ++ p2 → p2 ≠ [] → exec re (p2 ++ rest) none none = none) :
    search re (pre ++ rest) = search re rest := by
  induction pre with
  | nil => rfl
  | cons a as ih =>
    have h0 := h [] (a :: as) rfl (by simp)
    simp only [List.cons_append] at h0 ⊢
    rw [search, h0]
    exact ih (fun p1 p2 e hp => h (a :: p1) p2 (by simp [e]) hp)

theorem HasDecimal_append_left (v w : List Char) (h : HasDecimal w) : HasDecimal (v ++ w) := by
  obtain ⟨pre, d1, d2, x, post, e, h1, h2, hx⟩ := h
  exact ⟨v ++ pre, d1, d2, x, post, by simp [e], h1, h2, hx⟩

/-- A decimal group at the head of the input is matched, and captured, by the value
pattern after its `.*`. -/
theorem exec_decimal_group (d1 d2 post : List Char) (x : Char) (o c : Option (List Char))
    (h1 : IsDigits d1) (h2 : IsDigits d2) (hx : x = '*' ∨ x = ')') :
    exec [.one (.lit '('), .capOpen, .plus .digit, .one (.lit '.'), .plus .digit, .capClose,
        .one (.oneOf ['*', ')'])] ('(' :: (d1 ++ '.' :: (d2 ++ x :: post))) o c =
      some ⟨post, some (d1 ++ '.' :: (d2 ++ x :: post)), some (x :: post)⟩ := by
  rw [exec_lit, exec_capOpen]
  refine exec_plus_digits _ d1 _ _ _ _ h1
    (by intro a as e; rw [← (List.cons.inj e).1]; rfl) ?_
  rw [exec_lit]
  refine exec_plus_digits _ d2 _ _ _ _ h2 ?_ ?_
  · intro a as e
    rw [← (List.cons.inj e).1]
    rcases hx with rfl | rfl <;> rfl
  · rw [exec_capClose]
    rcases hx with rfl | rfl <;> simp [exec, Cls.test]

/-- The value pattern returns the last decimal group of a line: the group before which the
line has no newline and after whose `(` no other decimal group begins. -/
theorem search_valuePattern_last (pre d1 d2 post : List Char) (x : Char)
    (hpre : '\n' ∉ pre) (h1 : IsDigits d1) (h2 : IsDigits d2) (hx : x = '*' ∨ x = ')')
    (hlast : ¬ HasDecimal (d1 ++ '.' :: (d2 ++ x :: post))) :
    ∃ whole, search valuePattern (pre ++ '(' :: (d1 ++ '.' :: (d2 ++ x :: post))) =
      some (whole, ⟨d1 ++ '.' :: d2⟩) := by
  have hex : exec valuePattern (pre ++ '(' :: (d1 ++ '.' :: (d2 ++ x :: post))) none none =
      some ⟨post, some (d1 ++ '.' :: (d2 ++ x :: post)), some (x :: post)⟩ := by
    unfold valuePattern
    rw [exec_star]
    refine greedy_last .dot _ pre _ _ ?_ (exec_decimal_group d1 d2 post x none none h1 h2 hx) ?_
    · intro c hc
      have : c ≠ '\n' := fun e => hpre (e ▸ hc)
      simpa [Cls.test] using this
    · intro v w e hv _
      cases hw : exec [.one (.lit '('), .capOpen, .plus .digit, .one (.lit '.'), .plus .digit,
          .capClose, .one (.oneOf ['*', ')'])] w none none with
      | none => rfl
      | some m =>
        exfalso
        obtain ⟨w1, e1, hm⟩ := exec_sound _ w none none m hw
        have hocc : Occurs valuePattern w :=
          ⟨[], w1, m.rest, by simpa using e1, [], w1, rfl, by simp, hm⟩
        have hdec : HasDecimal w := (Occurs_valuePattern w).1 hocc
        cases v with
        | nil => exact hv rfl
        | cons a as =>
          simp only [List.cons_append, List.cons.injEq] at e
          exact hlast (e.2 ▸ HasDecimal_append_left as w hdec)
  refine ⟨between (pre ++ '(' :: (d1 ++ '.' :: (d2 ++ x :: post))) post, ?_⟩
  rw [search_of_exec _ _ _ hex]
  simp only [capture]
  have e : d1 ++ '.' :: (d2 ++ x :: post) = (d1 ++ '.' :: d2) ++ (x :: post) := by simp
  have e2 : between (d1 ++ '.' :: (d2 ++ x :: post)) (x :: post) = ⟨d1 ++ '.' :: d2⟩ := by
    rw [e, between_append]
  rw [e2]

theorem span_digits (d rest : List Char) (hd : ∀ c ∈ d, c.isDigit = true)
    (hr : ∀ a as, rest = a :: as → a.isDigit = false) :
    (d ++ rest).span Char.isDigit = (d, rest) := by
  rw [List.span_eq_take_drop]
  induction d with
  | nil =>
    cases rest with
    | nil => simp
    | cons a as => simp [List.takeWhile_cons, List.dropWhile_cons, hr a as rfl]
  | cons x u ih =>
    have hx := hd x (List.mem_cons_self _ _)
    have h := ih (fun c hc => hd c (List.mem_cons_of_mem _ hc))
    simp only [Prod.mk.injEq] at h
    simp [List.takeWhile_cons, List.dropWhile_cons, hx, h.1, h.2]

/-- The conversion of a numeral `d1.d2`: its value, or `ErrRange` beyond the binary64
range. -/
theorem ParseFloat_digits (d1 d2 : List Char) (h1 : IsDigits d1) (h2 : IsDigits d2) :
    ParseFloat ⟨d1 ++ '.' :: d2⟩ =
      if InRange d1 d2 then .ok (decimalValue d1 d2) else .error .ErrRange := by
  have hs := span_digits d1 ('.' :: d2) h1.2 (by intro a as e; rw [← (List.cons.inj e).1]; rfl)
  have hall : d2.all Char.isDigit = true := by
    simpa [List.all_eq_true] using h2.2
  unfold ParseFloat
  simp only [hs]
  simp only [h1.1, h2.1, hall, ne_eq, not_false_eq_true, and_self, if_true]
  unfold InRange decimalValue
  by_cases hr : digitsValue (d1 ++ d2) < ((1 <<< 1024) - (1 <<< 970)) * 10 ^ d2.length
  · rw [if_neg (Nat.not_le.2 hr), if_pos hr]
  · rw [if_pos (Nat.not_lt.1 hr), if_neg hr]

/-- The value of a line is the value of its last decimal group when that is within the
binary64 range, and zero when it is not. -/
theorem GetValue_last_group (s : String) (pre d1 d2 post : List Char) (x : Char)
    (hs : s.data = pre ++ '(' :: (d1 ++ '.' :: (d2 ++ x :: post)))
    (hpre : '\n' ∉ pre) (h1 : IsDigits d1) (h2 : IsDigits d2) (hx : x = '*' ∨ x = ')')
    (hlast : ¬ HasDecimal (d1 ++ '.' :: (d2 ++ x :: post))) :
    GetValue s = .ok (if InRange d1 d2 then decimalValue d1 d2 else 0) := by
  obtain ⟨whole, hw⟩ := search_valuePattern_last pre d1 d2 post x hpre h1 h2 hx hlast
  have hf : FindStringSubmatch valuePattern s = [whole, ⟨d1 ++ '.' :: d2⟩] := by
    simp [FindStringSubmatch, hs, hw]
  unfold GetValue
  simp only [hf, index_pair_one, ParseFloat_digits d1 d2 h1 h2, pure, Except.pure, bind,
    Except.bind]
  by_cases hr : InRange d1 d2 <;> simp [hr]

/-- No decimal group begins in a text without `(`. -/
theorem not_HasDecimal_of_no_paren (l : List Char) (h : '(' ∉ l) : ¬ HasDecimal l := by
  rintro ⟨pre, d1, d2, x, post, e, -⟩
  apply h
  rw [e]
  simp

/-- No decimal group begins in the digits and the point of a numeral. -/
theorem not_HasDecimal_numeral (d1 d2 post : List Char) (x : Char) (h1 : IsDigits d1)
    (h2 : IsDigits d2) (hx : x = '*' ∨ x = ')') (hpost : ¬ HasDecimal post) :
    ¬ HasDecimal (d1 ++ '.' :: (d2 ++ x :: post)) := by
  rintro ⟨pre, e1, e2, y, q, e, g1, g2, gy⟩
  -- the `(` of the group lies in `post`
  have key : ∀ (u : List Char) (r : List Char), (∀ c ∈ u, c ≠ '(') →
      ∀ pre, u ++ r = pre ++ '(' :: (e1 ++ '.' :: (e2 ++ y :: q)) →
      ∃ pre1, r = pre1 ++ '(' :: (e1 ++ '.' :: (e2 ++ y :: q)) := by
    intro u
    induction u with
    | nil => intro r _ pre h; exact ⟨pre, by simpa using h⟩
    | cons a as ih =>
      intro r hu pre h
      cases pre with
      | nil =>
        simp only [List.cons_append, List.nil_append, List.cons.injEq] at h
        exact absurd h.1 (hu a (List.mem_cons_self _ _))
      | cons b pre1 =>
        simp only [List.cons_append, List.cons.injEq] at h
        exact ih r (fun c hc => hu c (List.mem_cons_of_mem _ hc)) pre1 h.2
  have hu : ∀ c ∈ d1 ++ '.' :: (d2 ++ [x]), c ≠ '(' := by
    intro c hc
    simp only [List.mem_append, List.mem_cons, List.mem_singleton, List.not_mem_nil,
      or_false] at hc
    rcases hc with hc | rfl | hc | rfl
    · intro e; subst e; have := h1.2 _ hc; simp at this
    · decide
    · intro e; subst e; have := h2.2 _ hc; simp at this
    · rcases hx with rfl | rfl <;> decide
  obtain ⟨pre1, hp⟩ := key (d1 ++ '.' :: (d2 ++ [x])) post hu pre (by simpa using e)
  exact hpost ⟨pre1, e1, e2, y, q, hp, g1, g2, gy⟩

/-- A text the code pattern matches is an OBIS code followed by `(`. -/
theorem Matches_obisPattern (w : List Char) (hw : Matches obisPattern w) :
    ∃ a b c d e, w = obisText a b c d e ++ ['('] ∧
      IsDigits a ∧ IsDigits b ∧ IsDigits c ∧ IsDigits d ∧ IsDigits e := by
  unfold obisPattern at hw
  rw [Matches_capOpen, Matches_plus_digit] at hw
  obtain ⟨a, v, rfl, ha, hw⟩ := hw
  rw [Matches_lit] at hw
  obtain ⟨v, rfl, hw⟩ := hw
  rw [Matches_plus_digit] at hw
  obtain ⟨b, v, rfl, hb, hw⟩ := hw
  rw [Matches_lit] at hw
  obtain ⟨v, rfl, hw⟩ := hw
  rw [Matches_plus_digit] at hw
  obtain ⟨c, v, rfl, hc, hw⟩ := hw
  rw [Matches_lit] at hw
  obtain ⟨v, rfl, hw⟩ := hw
  rw [Matches_plus_digit] at hw
  obtain ⟨d, v, rfl, hd, hw⟩ := hw
  rw [Matches_lit] at hw
  obtain ⟨v, rfl, hw⟩ := hw
  rw [Matches_plus_digit] at hw
  obtain ⟨e, v, rfl, he, hw⟩ := hw
  rw [Matches_capClose, Matches_lit] at hw
  obtain ⟨v, rfl, hw⟩ := hw
  rw [Matches_nil] at hw
  subst hw
  exact ⟨a, b, c, d, e, by simp [obisText], ha, hb, hc, hd, he⟩

/-- An OBIS code followed by `(` at the head of the input is matched, and captured, by the
code pattern. -/
theorem exec_obis_code (a b c d e post : List Char) (ha : IsDigits a) (hb : IsDigits b)
    (hc : IsDigits c) (hd : IsDigits d) (he : IsDigits e) :
    exec obisPattern (obisText a b c d e ++ '(' :: post) none none =
      some ⟨post, some (obisText a b c d e ++ '(' :: post), some ('(' :: post)⟩ := by
  have e0 : obisText a b c d e ++ '(' :: post =
      a ++ '-' :: (b ++ ':' :: (c ++ '.' :: (d ++ '.' :: (e ++ '(' :: post)))) := by
    simp [obisText]
  unfold obisPattern
  rw [exec_capOpen]
  conv_lhs => rw [e0]
  refine exec_plus_digits _ a _ _ _ _ ha (by intro x xs h; rw [← (List.cons.inj h).1]; rfl) ?_
  rw [exec_lit]
  refine exec_plus_digits _ b _ _ _ _ hb (by intro x xs h; rw [← (List.cons.inj h).1]; rfl) ?_
  rw [exec_lit]
  refine exec_plus_digits _ c _ _ _ _ hc (by intro x xs h; rw [← (List.cons.inj h).1]; rfl) ?_
  rw [exec_lit]
  refine exec_plus_digits _ d _ _ _ _ hd (by intro x xs h; rw [← (List.cons.inj h).1]; rfl) ?_
  rw [exec_lit]
  refine exec_plus_digits _ e _ _ _ _ he (by intro x xs h; rw [← (List.cons.inj h).1]; rfl) ?_
  rw [exec_capClose, exec_lit, e0]
  rfl

theorem exec_obisPattern_none (l : List Char) (h : ¬ BeginsWithObisCode l) :
    exec obisPattern l none none = none := by
  cases hx : exec obisPattern l none none with
  | none => rfl
  | some m =>
    exfalso
    obtain ⟨w, e1, hm⟩ := exec_sound obisPattern l none none m hx
    obtain ⟨a, b, c, d, e, rfl, ha, hb, hc, hd, he⟩ := Matches_obisPattern w hm
    exact h ⟨a, b, c, d, e, m.rest, by simpa using e1, ha, hb, hc, hd, he⟩

/-- The code `getObisReference` returns is the one of the leftmost place of the line where
an OBIS code followed by `(` begins. -/
theorem getObisReference_leftmost (s : String) (pre a b c d e post : List Char)
    (hs : s.data = pre ++ (obisText a b c d e ++ '(' :: post))
    (ha : IsDigits a) (hb : IsDigits b) (hc : IsDigits c) (hd : IsDigits d) (he : IsDigits e)
    (hleft : ∀ p1 p2, pre = p1 ++ p2 → p2 ≠ [] →
      ¬ BeginsWithObisCode (p2 ++ (obisText a b c d e ++ '(' :: post))) :
    getObisReference s = .ok (⟨obisText a b c d e⟩, true) := by
  have h1 : search obisPattern s.data =
      some (between (obisText a b c d e ++ '(' :: post) post, ⟨obisText a b c d e⟩) := by
    rw [hs, search_skip obisPattern pre _
      (fun p1 p2 e1 e2 => exec_obisPattern_none _ (hleft p1 p2 e1 e2)),
      search_of_exec _ _ _ (exec_obis_code a b c d e post ha hb hc hd he)]
    simp only [capture, between_append]
  simp [getObisReference, FindStringSubmatch, h1, index_pair_one, pure, Except.pure, bind,
    Except.bind]

/-- The context after a list of lines is the one `finalContext` computes. -/
theorem feed_context (influxdb : Handler) (ls : List String) (p : Parser) :
    ∃ q t, feed influxdb p ls = .ok (q, t) ∧
      q.obisReference = finalContext p.obisReference ls := by
  obtain ⟨t, h⟩ := feed_eq influxdb ls p
  exact ⟨_, t, h, rfl⟩


theorem digitsValue_leading_zero (l : List Char) : digitsValue ('0' :: l) = digitsValue l := by
  simp [digitsValue]

theorem String_eq_of_data (s : String) (l : List Char) (h : s.data = l) : s = ⟨l⟩ := by
  cases s
  simp_all

theorem foldl_replicate_zero (n m : Nat) :
    List.foldl (fun n c => 10 * n + (c.toNat - '0'.toNat)) m (List.replicate n '0') =
      m * 10 ^ n := by
  induction n generalizing m with
  | zero => simp
  | succ n ih =>
    rw [List.replicate_succ, List.foldl_cons, ih]
    have : '0'.toNat - '0'.toNat = 0 := by decide
    rw [this]
    ring

/-- The value of a line is the conversion of the text the value pattern captures, or zero
when the conversion reports an error. -/
theorem GetValue_of_capture (s w g : String) (h : FindStringSubmatch valuePattern s = [w, g]) :
    GetValue s = .ok (orZero (ParseFloat g)) := by
  unfold GetValue
  simp only [h, index_pair_one, pure, Except.pure, bind, Except.bind]
  cases ParseFloat g <;> simp [orZero]

/-- The value pattern captures the text of the last decimal group of a line. -/
theorem FindStringSubmatch_last_group (s : String) (pre d1 d2 post : List Char) (x : Char)
    (hs : s.data = pre ++ '(' :: (d1 ++ '.' :: (d2 ++ x :: post)))
    (hpre : '\n' ∉ pre) (h1 : IsDigits d1) (h2 : IsDigits d2) (hx : x = '*' ∨ x = ')')
    (hlast : ¬ HasDecimal post) :
    ∃ whole, FindStringSubmatch valuePattern s = [whole, ⟨d1 ++ '.' :: d2⟩] := by
  obtain ⟨whole, hw⟩ := search_valuePattern_last pre d1 d2 post x hpre h1 h2 hx
    (not_HasDecimal_numeral d1 d2 post x h1 h2 hx hlast)
  exact ⟨whole, by simp [FindStringSubmatch, hs, hw]⟩

theorem InRange_leading_zero (d1 d2 : List Char) : InRange ('0' :: d1) d2 ↔ InRange d1 d2 := by
  unfold InRange
  rw [List.cons_append, digitsValue_leading_zero]

theorem decimalValue_leading_zero (d1 d2 : List Char) :
    decimalValue ('0' :: d1) d2 = decimalValue d1 d2 := by
  unfold decimalValue
  rw [List.cons_append, digitsValue_leading_zero]

/-! ## Properties of the specification -/

/-- C1 (code evaluated at the end-to-end input).  From a fresh parser the five lines
`/header`, `1-0:1.8.1(12972.117)`, `1-0:2.8.1(00746.379)`,
`0-1:24.3.0(201024220000S)(08950.179)`, `!1234` produce one electricity call followed by one
gas call, with delivered_low = 12972.117 and returned_low = 746.379, but the gas call
carries delivered = 0, not 8950.179: the terminator line is itself assigned, with value 0,
to the field of the code last seen. -/
theorem C1_end_to_end_gas_reported_zero :
    feed accepting Parser.fresh
        ["/header", "1-0:1.8.1(12972.117)", "1-0:2.8.1(00746.379)",
         "0-1:24.3.0(201024220000S)(08950.179)", "!1234"] =
      .ok ({ obisReference := "0-1:24.3.0",
             data := ⟨"", 12972117 / 1000, 0, 746379 / 1000, 0, 0, 0, 0, ""⟩ },
           [.insert { measurement := "electricity"
                      tags := [("source", "dsmr"), ("metric", "kwh"), ("type", "electricity")]
                      fields := [("delivered_low", 12972117 / 1000), ("delivered_high", 0),
                                 ("returned_low", 746379 / 1000), ("returned_high", 0)] },
            .insert { measurement := "gas"
                      tags := [("source", "dsmr"), ("metric", "m2"), ("type", "gas")]
                      fields := [("delivered", 0)] }]) := by
  rfl

/-- C2.  On every parser state and every line `Parse` returns normally; when the first
character of the line is `!` its sink calls are exactly the electricity call and then the
gas call, with the tags and field names of the source and the values of the accumulator
as it stands when the calls are made (the accumulator `Parse` leaves); on the empty line
and on a line that does not begin with `!` it makes no sink call. -/
theorem C2_sink_calls_at_terminator_only (influxdb : Handler) (p : Parser) (s : String) :
    ∃ q t, Parse influxdb p s = .ok (q, t) ∧
      inserts t =
        if s.data.head? = some '!' then
          [{ measurement := "electricity"
             tags := [("source", "dsmr"), ("metric", "kwh"), ("type", "electricity")]
             fields := [("delivered_low", q.data.DeliveredToClientTariff1),
                        ("delivered_high", q.data.DeliveredToClientTariff2),
                        ("returned_low", q.data.DeliveredByClientTariff1),
                        ("returned_high", q.data.DeliveredByClientTariff2)] },
           { measurement := "gas"
             tags := [("source", "dsmr"), ("metric", "m2"), ("type", "gas")]
             fields := [("delivered", q.data.DeliveredToClientGas)] }]
        else [] := by
  cases hs : s.data with
  | nil => exact ⟨p, [], Parse_empty influxdb p s hs, by simp [inserts]⟩
  | cons c cs =>
    obtain ⟨v, hv⟩ := GetValue_ok s
    have key : ∀ id hasID, getObisReference s = .ok (id, hasID) → _ := fun id hasID ho =>
      Parse_cons influxdb p s c cs id hasID v hs ho hv
    rcases getObisReference_cases s with ho | ⟨id, ho⟩
    · refine ⟨_, _, key _ _ ho, ?_⟩
      by_cases hc : c = '!'
      · simp [hc, inserts_append, inserts_doInsert, electricityCall, gasCall]
      · simp [hc, inserts]
    · refine ⟨_, _, key _ _ ho, ?_⟩
      by_cases hc : c = '!'
      · simp [hc, inserts_append, inserts_doInsert, electricityCall, gasCall]
      · simp [hc, inserts]

/-- C3 (code evaluated at a failing input).  After the gas line
`0-1:24.3.0(201024220000S)(08950.179)` the accumulator holds gas = 8950.179 and the context
is `0-1:24.3.0`.  The terminator line `!1234` then leaves the accumulator with gas = 0 and
sends gas delivered = 0: the snapshot differs from the accumulator as it stood before the
call, and the accumulator is altered by the call. -/
theorem C3_terminator_overwrites_context_field :
    feed accepting Parser.fresh ["0-1:24.3.0(201024220000S)(08950.179)"] =
      .ok ({ obisReference := "0-1:24.3.0",
             data := ⟨"", 0, 0, 0, 0, 0, 0, 8950179 / 1000, ""⟩ }, []) ∧
    Parse accepting
        { obisReference := "0-1:24.3.0", data := ⟨"", 0, 0, 0, 0, 0, 0, 8950179 / 1000, ""⟩ }
        "!1234" =
      .ok ({ obisReference := "0-1:24.3.0", data := ⟨"", 0, 0, 0, 0, 0, 0, 0, ""⟩ },
           [.insert { measurement := "electricity"
                      tags := [("source", "dsmr"), ("metric", "kwh"), ("type", "electricity")]
                      fields := [("delivered_low", 0), ("delivered_high", 0),
                                 ("returned_low", 0), ("returned_high", 0)] },
            .insert { measurement := "gas"
                      tags := [("source", "dsmr"), ("metric", "m2"), ("type", "gas")]
                      fields := [("delivered", 0)] }]) := by
  constructor <;> rfl

/-- C4 (counterexample).  After `1-0:1.8.1(12972.117)` and the terminator `!1234` the OBIS
context is still `1-0:1.8.1`, not cleared, and the bare value line `(5.5)`, which contains
no OBIS code, then changes delivered_low from 0 to 5.5. -/
theorem C4_context_not_cleared :
    feed accepting Parser.fresh ["1-0:1.8.1(12972.117)", "!1234"] =
      .ok ({ obisReference := "1-0:1.8.1", data := ⟨"", 0, 0, 0, 0, 0, 0, 0, ""⟩ },
           [.insert (electricityCall ⟨"", 0, 0, 0, 0, 0, 0, 0, ""⟩),
            .insert (gasCall ⟨"", 0, 0, 0, 0, 0, 0, 0, ""⟩)]) ∧
    ¬ HasObisCode "(5.5)".data ∧
    Parse accepting
        { obisReference := "1-0:1.8.1", data := ⟨"", 0, 0, 0, 0, 0, 0, 0, ""⟩ } "(5.5)" =
      .ok ({ obisReference := "1-0:1.8.1", data := ⟨"", 55 / 10, 0, 0, 0, 0, 0, 0, ""⟩ }, []) ∧
    (55 / 10 : Float64) ≠ 0 := by
  refine ⟨by rfl, (getObisReference_none_iff "(5.5)").1 (by rfl), by rfl, by norm_num⟩

/-- C4 (amended).  A terminator line that contains no OBIS code leaves the OBIS context as
it was: the context is not cleared.  A non-empty line without OBIS code that follows it
keeps that context too and assigns its value to the field of that context, every other
field being unchanged: when the context is one of the seven codes its field then holds
the value of the line, and when the context is none of the seven codes no field
changes. -/
theorem C4_context_kept_across_terminator (influxdb : Handler) (p : Parser) (t s : String)
    (ht : t.data.head? = some '!') (hto : ¬ HasObisCode t.data)
    (hs : s.data ≠ []) (hso : ¬ HasObisCode s.data) :
    ∃ q u v r w, Parse influxdb p t = .ok (q, u) ∧ q.obisReference = p.obisReference ∧
      GetValue s = .ok v ∧ Parse influxdb q s = .ok (r, w) ∧
      r.obisReference = p.obisReference ∧ r.data = setField p.obisReference v q.data ∧
      (p.obisReference ∈ recognisedCodes → fieldOf p.obisReference r.data = some v) ∧
      (p.obisReference ∉ recognisedCodes → r.data = q.data) := by
  obtain ⟨vt, hvt⟩ := GetValue_ok t
  obtain ⟨v, hv⟩ := GetValue_ok s
  have hto := (getObisReference_none_iff t).2 hto
  have hso := (getObisReference_none_iff s).2 hso
  cases htd : t.data with
  | nil => simp [htd] at ht
  | cons c cs =>
    cases hsd : s.data with
    | nil => exact absurd hsd hs
    | cons d ds =>
      have h1 := Parse_cons influxdb p t c cs "" false vt htd hto hvt
      refine ⟨_, _, v, _, _, h1, by simp, hv,
        Parse_cons influxdb _ s d ds "" false v hsd hso hv, by simp, by simp, ?_, ?_⟩
      · intro hc
        simpa using fieldOf_setField_self p.obisReference v _ hc
      · intro hn
        simpa using setField_of_not_mem p.obisReference v _ hn

/-- C4 (amended), at the parser that has read `1-0:1.8.1(12972.117)`, whose context is
`1-0:1.8.1`, the terminator `!1234` and the value line `(5.5)`: the context is kept and
delivered_low, 0 after the terminator, is 5.5 after the value line. -/
theorem C4_context_kept_across_terminator_witness :
    ("!1234".data.head? = some '!' ∧ ¬ HasObisCode "!1234".data ∧
      "(5.5)".data ≠ [] ∧ ¬ HasObisCode "(5.5)".data) ∧
    (∃ q u v r w,
      Parse accepting
        { obisReference := "1-0:1.8.1", data := ⟨"", 12972117 / 1000, 0, 0, 0, 0, 0, 0, ""⟩ }
        "!1234" = .ok (q, u) ∧
      q.obisReference = "1-0:1.8.1" ∧
      GetValue "(5.5)" = .ok v ∧ Parse accepting q "(5.5)" = .ok (r, w) ∧
      r.obisReference = "1-0:1.8.1" ∧ r.data = setField "1-0:1.8.1" v q.data ∧
      ("1-0:1.8.1" ∈ recognisedCodes → fieldOf "1-0:1.8.1" r.data = some v) ∧
      ("1-0:1.8.1" ∉ recognisedCodes → r.data = q.data)) ∧
    "1-0:1.8.1" ∈ recognisedCodes ∧ GetValue "(5.5)" = .ok (55 / 10) :=
  ⟨⟨by rfl, (getObisReference_none_iff "!1234").1 (by rfl), by simp,
      (getObisReference_none_iff "(5.5)").1 (by rfl)⟩,
    C4_context_kept_across_terminator accepting
      { obisReference := "1-0:1.8.1", data := ⟨"", 12972117 / 1000, 0, 0, 0, 0, 0, 0, ""⟩ }
      "!1234" "(5.5)"
      (by rfl) ((getObisReference_none_iff "!1234").1 (by rfl)) (by simp)
      ((getObisReference_none_iff "(5.5)").1 (by rfl)),
    by simp [recognisedCodes], by rfl⟩

/-- C5 (code evaluated at a failing input).  Telegram 1 is `/header`,
`1-0:1.8.2(14730.900)`, `!1234` and sets delivered_high to 14730.900; telegram 2 is
`/header`, `1-0:1.8.1(12972.117)`, `!1234` and has no `1-0:1.8.2` line.  The terminator of
telegram 1, processed under the context `1-0:1.8.2`, overwrites delivered_high with 0, and
the electricity call at the terminator of telegram 2 carries delivered_high = 0, not
14730.900. -/
theorem C5_delivered_high_lost :
    feed accepting Parser.fresh ["/header", "1-0:1.8.2(14730.900)"] =
      .ok ({ obisReference := "1-0:1.8.2",
             data := ⟨"", 0, 14730900 / 1000, 0, 0, 0, 0, 0, ""⟩ }, []) ∧
    feed accepting Parser.fresh
        (["/header", "1-0:1.8.2(14730.900)", "!1234"] ++
         ["/header", "1-0:1.8.1(12972.117)", "!1234"]) =
      .ok ({ obisReference := "1-0:1.8.1", data := ⟨"", 0, 0, 0, 0, 0, 0, 0, ""⟩ },
           [.insert (electricityCall ⟨"", 0, 0, 0, 0, 0, 0, 0, ""⟩),
            .insert (gasCall ⟨"", 0, 0, 0, 0, 0, 0, 0, ""⟩),
            .insert { measurement := "electricity"
                      tags := [("source", "dsmr"), ("metric", "kwh"), ("type", "electricity")]
                      fields := [("delivered_low", 0), ("delivered_high", 0),
                                 ("returned_low", 0), ("returned_high", 0)] },
            .insert (gasCall ⟨"", 0, 0, 0, 0, 0, 0, 0, ""⟩)]) ∧
    (14730900 / 1000 : Float64) ≠ 0 := by
  refine ⟨by rfl, by rfl, by norm_num⟩

/-- Retention where no line is processed under the code of the field.  Let telegram 1
contain a line `L` that carries a recognised code `c` with
value `v`, directly followed by a line that carries another OBIS code, and let no later
line of telegram 1 and no line of telegram 2 carry `c`.  Then the two calls made at the
terminator of telegram 2 are built from an accumulator whose field of `c` is `v`: a field
keeps its value over every line processed while the OBIS context is not its code. -/
theorem retention_across_telegrams (influxdb : Handler) (p : Parser) (c c1 : String)
    (v : Float64) (pre mid body2 : List String) (L l1 t1 t2 : String)
    (hc : c ∈ recognisedCodes) (hL : getObisReference L = .ok (c, true))
    (hv : GetValue L = .ok v) (hl1 : getObisReference l1 = .ok (c1, true)) (hne : c1 ≠ c)
    (hrest : ∀ x ∈ mid ++ t1 :: (body2 ++ [t2]), getObisReference x ≠ .ok (c, true))
    (ht2 : t2.data.head? = some '!') :
    ∃ q tr earlier,
      feed influxdb p ((pre ++ L :: l1 :: (mid ++ [t1])) ++ (body2 ++ [t2])) = .ok (q, tr) ∧
      inserts tr = earlier ++ [electricityCall q.data, gasCall q.data] ∧
      fieldOf c q.data = some v := by
  obtain ⟨p0, u0, h0⟩ := feed_ok influxdb pre p
  obtain ⟨p1, u1, h1⟩ := Parse_ok influxdb p0 L
  obtain ⟨p2, u2, h2⟩ := Parse_ok influxdb p1 l1
  obtain ⟨p3, u3, h3⟩ := feed_ok influxdb (mid ++ t1 :: body2) p2
  obtain ⟨p4, u4, h4⟩ := Parse_ok influxdb p3 t2
  -- the state after `L`
  obtain ⟨a, as, hLd⟩ := data_cons_of_code L c hL
  have h1' := h1
  rw [Parse_cons influxdb p0 L a as c true v hLd hL hv] at h1'
  simp only [Except.ok.injEq, Prod.mk.injEq] at h1'
  obtain ⟨hp1, -⟩ := h1'
  have f1 : fieldOf c p1.data = some v := by
    rw [← hp1]
    simpa using fieldOf_setField_self c v p0.data hc
  -- the state after `l1`
  obtain ⟨b, bs, hl1d⟩ := data_cons_of_code l1 c1 hl1
  obtain ⟨w, hw⟩ := GetValue_ok l1
  have h2' := h2
  rw [Parse_cons influxdb p1 l1 b bs c1 true w hl1d hl1 hw] at h2'
  simp only [Except.ok.injEq, Prod.mk.injEq] at h2'
  obtain ⟨hp2, -⟩ := h2'
  have c2 : p2.obisReference ≠ c := by rw [← hp2]; simpa using hne
  have f2 : fieldOf c p2.data = some v := by
    rw [← hp2]
    simpa [f1] using fieldOf_setField_ne c c1 w p1.data hne
  -- the lines up to the last terminator
  have r3 := feed_retains influxdb c (mid ++ t1 :: body2) p2 p3 u3 c2
    (fun x hx => hrest x (by
      simp only [List.mem_append, List.mem_cons, List.mem_singleton] at hx ⊢
      tauto)) h3
  have r4 := Parse_retains influxdb c p3 p4 t2 u4 r3.1
    (hrest t2 (by simp)) h4
  have e4 := Parse_terminator influxdb p3 p4 t2 u4 ht2 h4
  have hfeed : feed influxdb p ((pre ++ L :: l1 :: (mid ++ [t1])) ++ (body2 ++ [t2])) =
      .ok (p4, u0 ++ (u1 ++ (u2 ++ (u3 ++ (u4 ++ []))))) := by
    have e : (pre ++ L :: l1 :: (mid ++ [t1])) ++ (body2 ++ [t2]) =
        pre ++ (L :: (l1 :: ((mid ++ t1 :: body2) ++ [t2]))) := by simp
    rw [e]
    refine feed_append_ok influxdb _ _ p p0 p4 _ _ h0 ?_
    refine feed_cons_ok influxdb p0 p1 p4 L _ u1 _ h1 ?_
    refine feed_cons_ok influxdb p1 p2 p4 l1 _ u2 _ h2 ?_
    refine feed_append_ok influxdb _ _ p2 p3 p4 _ _ h3 ?_
    exact feed_cons_ok influxdb p3 p4 p4 t2 [] u4 [] h4 rfl
  refine ⟨p4, _, inserts (u0 ++ (u1 ++ (u2 ++ u3))), hfeed, ?_, ?_⟩
  · simp [inserts_append, e4]
  · rw [r4.2, r3.2, f2]

/-- The retention at telegram 1 `/header`, `1-0:1.8.2(14730.900)`, `1-0:2.8.1(00746.379)`,
`!1234` and telegram 2 `/header`, `1-0:1.8.1(12972.117)`, `!1234`. -/
theorem retention_across_telegrams_example :
    ("1-0:1.8.2" ∈ recognisedCodes ∧
      getObisReference "1-0:1.8.2(14730.900)" = .ok ("1-0:1.8.2", true) ∧
      GetValue "1-0:1.8.2(14730.900)" = .ok (14730900 / 1000) ∧
      getObisReference "1-0:2.8.1(00746.379)" = .ok ("1-0:2.8.1", true) ∧
      "1-0:2.8.1" ≠ "1-0:1.8.2" ∧
      (∀ x ∈ [] ++ "!1234" :: (["/header", "1-0:1.8.1(12972.117)"] ++ ["!1234"]),
        getObisReference x ≠ .ok ("1-0:1.8.2", true)) ∧
      "!1234".data.head? = some '!') ∧
    ∃ q tr earlier,
      feed accepting Parser.fresh
          ((["/header"] ++ "1-0:1.8.2(14730.900)" :: "1-0:2.8.1(00746.379)" :: ([] ++ ["!1234"]))
            ++ (["/header", "1-0:1.8.1(12972.117)"] ++ ["!1234"])) = .ok (q, tr) ∧
      inserts tr = earlier ++ [electricityCall q.data, gasCall q.data] ∧
      fieldOf "1-0:1.8.2" q.data = some (14730900 / 1000) := by
  have hrest : ∀ x ∈ [] ++ "!1234" :: (["/header", "1-0:1.8.1(12972.117)"] ++ ["!1234"]),
      getObisReference x ≠ .ok ("1-0:1.8.2", true) := by
    intro x hx
    simp only [List.nil_append, List.cons_append, List.mem_cons, List.mem_singleton,
      List.not_mem_nil, or_false] at hx
    have e1 : getObisReference "!1234" = .ok ("", false) := by rfl
    have e2 : getObisReference "/header" = .ok ("", false) := by rfl
    have e3 : getObisReference "1-0:1.8.1(12972.117)" = .ok ("1-0:1.8.1", true) := by rfl
    rcases hx with rfl | rfl | rfl | rfl
    · rw [e1]; simp
    · rw [e2]; simp
    · rw [e3]; simp
    · rw [e1]; simp
  exact ⟨⟨by simp [recognisedCodes], by rfl, by rfl, by rfl, by decide, hrest, by rfl⟩,
    retention_across_telegrams accepting Parser.fresh "1-0:1.8.2" "1-0:2.8.1"
      (14730900 / 1000) ["/header"] [] ["/header", "1-0:1.8.1(12972.117)"]
      "1-0:1.8.2(14730.900)" "1-0:2.8.1(00746.379)" "!1234" "!1234"
      (by simp [recognisedCodes]) (by rfl) (by rfl) (by rfl) (by decide) hrest (by rfl)⟩

/-- C6 (code evaluated at a failing input).  From every parser state and with every sink,
the line `1-0:1.8.1(12972.117*kWh)` followed by the terminator `!` ends in an accumulator
whose delivered_low is 0, the other fields being those of the initial state, and the
electricity call carries delivered_low = 0, not 12972.117. -/
theorem C6_terminator_zeroes_delivered_low (influxdb : Handler) (p : Parser) :
    ∃ q t, feed influxdb p ["1-0:1.8.1(12972.117*kWh)", "!"] = .ok (q, t) ∧
      q.data = { p.data with DeliveredToClientTariff1 := 0 } ∧
      inserts t =
        [{ measurement := "electricity"
           tags := [("source", "dsmr"), ("metric", "kwh"), ("type", "electricity")]
           fields := [("delivered_low", 0),
                      ("delivered_high", p.data.DeliveredToClientTariff2),
                      ("returned_low", p.data.DeliveredByClientTariff1),
                      ("returned_high", p.data.DeliveredByClientTariff2)] },
         { measurement := "gas"
           tags := [("source", "dsmr"), ("metric", "m2"), ("type", "gas")]
           fields := [("delivered", p.data.DeliveredToClientGas)] }] := by
  have h1 := Parse_cons influxdb p "1-0:1.8.1(12972.117*kWh)" '1' "-0:1.8.1(12972.117*kWh)".data
    "1-0:1.8.1" true (12972117 / 1000) (by rfl) (by rfl) (by rfl)
  have h2 := Parse_cons influxdb
    { obisReference := "1-0:1.8.1", data := setField "1-0:1.8.1" (12972117 / 1000) p.data }
    "!" '!' [] "" false 0 (by rfl) (by rfl) (by rfl)
  simp only [if_true, Bool.false_eq_true, if_false] at h1 h2
  refine ⟨_, _, feed_cons_ok influxdb p _ _ _ _ _ _ h1
    (feed_cons_ok influxdb _ _ _ _ [] _ [] h2 rfl), ?_, ?_⟩
  · simp [setField]
  · simp [setField, inserts_append, inserts_doInsert, electricityCall, gasCall, inserts]

/-- C7 (counterexample).  The parser that has read `1-0:1.8.1(12972.117)` holds
delivered_low = 12972.117 under the context `1-0:1.8.1`.  The line `/header`, which matches
no OBIS code and is no terminator, then sets delivered_low to 0. -/
theorem C7_other_line_overwrites_field :
    feed accepting Parser.fresh ["1-0:1.8.1(12972.117)"] =
      .ok ({ obisReference := "1-0:1.8.1",
             data := ⟨"", 12972117 / 1000, 0, 0, 0, 0, 0, 0, ""⟩ }, []) ∧
    ¬ HasObisCode "/header".data ∧
    "/header".data.head? ≠ some '!' ∧
    Parse accepting
        { obisReference := "1-0:1.8.1", data := ⟨"", 12972117 / 1000, 0, 0, 0, 0, 0, 0, ""⟩ }
        "/header" =
      .ok ({ obisReference := "1-0:1.8.1", data := ⟨"", 0, 0, 0, 0, 0, 0, 0, ""⟩ }, []) ∧
    (12972117 / 1000 : Float64) ≠ 0 := by
  refine ⟨by rfl, (getObisReference_none_iff "/header").1 (by rfl), by decide, by rfl,
    by norm_num⟩

/-- C7 (amended).  A line that matches no OBIS code and does not begin with `!` produces no
sink call and leaves the OBIS context unchanged.  The empty line changes nothing.  A
non-empty such line assigns its value to the field of the current context and changes no
other field; when the context is not one of the seven codes `Parse` is a no-op. -/
theorem C7_line_without_code (influxdb : Handler) (p : Parser) (s : String)
    (ho : ¬ HasObisCode s.data) (hb : s.data.head? ≠ some '!') :
    ∃ v, GetValue s = .ok v ∧
      Parse influxdb p s =
        .ok ({ obisReference := p.obisReference,
               data := if s.data = [] then p.data else setField p.obisReference v p.data },
             []) ∧
      (p.obisReference ∉ recognisedCodes → Parse influxdb p s = .ok (p, [])) := by
  obtain ⟨v, hv⟩ := GetValue_ok s
  have ho := (getObisReference_none_iff s).2 ho
  refine ⟨v, hv, ?_⟩
  cases hd : s.data with
  | nil => simp [Parse_empty influxdb p s hd]
  | cons a as =>
    have ha : a ≠ '!' := by simpa [hd] using hb
    have h := Parse_cons influxdb p s a as "" false v hd ho hv
    simp only [Bool.false_eq_true, if_false, ha] at h
    refine ⟨by simpa using h, fun hn => ?_⟩
    rw [h, setField_of_not_mem _ _ _ hn]

/-- C7 (amended), at the line `/header`. -/
theorem C7_line_without_code_witness :
    (¬ HasObisCode "/header".data ∧ "/header".data.head? ≠ some '!') ∧
    ∃ v, GetValue "/header" = .ok v ∧
      Parse accepting Parser.fresh "/header" =
        .ok ({ obisReference := Parser.fresh.obisReference,
               data := if "/header".data = [] then Parser.fresh.data
                 else setField Parser.fresh.obisReference v Parser.fresh.data },
             []) ∧
      (Parser.fresh.obisReference ∉ recognisedCodes →
        Parse accepting Parser.fresh "/header" = .ok (Parser.fresh, [])) :=
  ⟨⟨(getObisReference_none_iff "/header").1 (by rfl), by decide⟩,
    C7_line_without_code accepting Parser.fresh "/header"
      ((getObisReference_none_iff "/header").1 (by rfl)) (by decide)⟩

/-- C8.  On every parser state, a line in which `getObisReference` finds one of the seven
codes `c` and which contains no decimal group (`(`, digits, a point, digits, then `*` or
`)`) makes `Parse` return normally with `c` as context and with the field of `c` equal to
0, whatever it held before. -/
theorem C8_zero_fallback (influxdb : Handler) (p : Parser) (s c : String)
    (hc : c ∈ recognisedCodes) (ho : getObisReference s = .ok (c, true))
    (hv : ¬ HasDecimal s.data) :
    ∃ q t, Parse influxdb p s = .ok (q, t) ∧ q.obisReference = c ∧
      fieldOf c q.data = some 0 := by
  obtain ⟨a, as, hd⟩ := data_cons_of_code s c ho
  refine ⟨_, _, Parse_cons influxdb p s a as c true 0 hd ho
    (GetValue_of_no_match s ((valuePattern_no_match_iff s).2 hv)), ?_, ?_⟩
  · simp
  · simpa using fieldOf_setField_self c 0 p.data hc

/-- C8, at the line `1-0:1.8.1(ABC)` and a parser that holds delivered_low = 12972.117. -/
theorem C8_zero_fallback_witness :
    ("1-0:1.8.1" ∈ recognisedCodes ∧
      getObisReference "1-0:1.8.1(ABC)" = .ok ("1-0:1.8.1", true) ∧
      ¬ HasDecimal "1-0:1.8.1(ABC)".data) ∧
    ∃ q t, Parse accepting
        { obisReference := "", data := ⟨"", 12972117 / 1000, 0, 0, 0, 0, 0, 0, ""⟩ }
        "1-0:1.8.1(ABC)" = .ok (q, t) ∧
      q.obisReference = "1-0:1.8.1" ∧ fieldOf "1-0:1.8.1" q.data = some 0 :=
  ⟨⟨by simp [recognisedCodes], by rfl, (valuePattern_no_match_iff "1-0:1.8.1(ABC)").1 (by rfl)⟩,
    C8_zero_fallback accepting _ "1-0:1.8.1(ABC)" "1-0:1.8.1"
      (by simp [recognisedCodes]) (by rfl)
      ((valuePattern_no_match_iff "1-0:1.8.1(ABC)").1 (by rfl))⟩

/-- C9.  On every parser state, a line in which `getObisReference` finds one of the seven
codes `c`, followed at once by a non-empty line that contains no OBIS code and no decimal
group, makes the loop return normally with the field of `c` equal to 0. -/
theorem C9_code_line_then_non_numeric_line (influxdb : Handler) (p : Parser) (l1 l2 c : String)
    (hc : c ∈ recognisedCodes) (h1 : getObisReference l1 = .ok (c, true))
    (hne : l2.data ≠ []) (h2 : ¬ HasObisCode l2.data) (hv : ¬ HasDecimal l2.data) :
    ∃ q t, feed influxdb p [l1, l2] = .ok (q, t) ∧ fieldOf c q.data = some 0 := by
  obtain ⟨a, as, hd1⟩ := data_cons_of_code l1 c h1
  obtain ⟨v, hv1⟩ := GetValue_ok l1
  have h2 := (getObisReference_none_iff l2).2 h2
  have hv := (valuePattern_no_match_iff l2).2 hv
  cases hd2 : l2.data with
  | nil => exact absurd hd2 hne
  | cons b bs =>
    have e1 := Parse_cons influxdb p l1 a as c true v hd1 h1 hv1
    have e2 := Parse_cons influxdb
      { obisReference := c, data := setField c v p.data } l2 b bs "" false 0 hd2 h2
      (GetValue_of_no_match l2 hv)
    simp only [if_true, Bool.false_eq_true, if_false] at e1 e2
    refine ⟨_, _, feed_cons_ok influxdb p _ _ _ _ _ _ e1
      (feed_cons_ok influxdb _ _ _ _ [] _ [] e2 rfl), ?_⟩
    simpa using fieldOf_setField_self c 0 (setField c v p.data) hc

/-- C9, at the lines `1-0:1.8.1(12972.117)` and `ABC`. -/
theorem C9_code_line_then_non_numeric_line_witness :
    ("1-0:1.8.1" ∈ recognisedCodes ∧
      getObisReference "1-0:1.8.1(12972.117)" = .ok ("1-0:1.8.1", true) ∧
      "ABC".data ≠ [] ∧ ¬ HasObisCode "ABC".data ∧ ¬ HasDecimal "ABC".data) ∧
    ∃ q t, feed accepting Parser.fresh ["1-0:1.8.1(12972.117)", "ABC"] = .ok (q, t) ∧
      fieldOf "1-0:1.8.1" q.data = some 0 :=
  ⟨⟨by simp [recognisedCodes], by rfl, by simp, (getObisReference_none_iff "ABC").1 (by rfl),
      (valuePattern_no_match_iff "ABC").1 (by rfl)⟩,
    C9_code_line_then_non_numeric_line accepting Parser.fresh "1-0:1.8.1(12972.117)" "ABC"
      "1-0:1.8.1" (by simp [recognisedCodes]) (by rfl) (by simp)
      ((getObisReference_none_iff "ABC").1 (by rfl))
      ((valuePattern_no_match_iff "ABC").1 (by rfl))⟩

/-- C10.  From the fresh parser, whose context is empty, every finite list of lines none of
which contains an OBIS code, bare value lines and terminator lines included, makes the
loop return normally with the parser still fresh: every field of the accumulator has its
initial value. -/
theorem C10_no_code_seen_is_inert (influxdb : Handler) (ls : List String)
    (h : ∀ s ∈ ls, ¬ HasObisCode s.data) :
    ∃ t, feed influxdb Parser.fresh ls = .ok (Parser.fresh, t) := by
  have hf : Parser.fresh.obisReference ∉ recognisedCodes := by
    simp [Parser.fresh, recognisedCodes]
  induction ls with
  | nil => exact ⟨[], rfl⟩
  | cons s rest ih =>
    obtain ⟨t1, h1⟩ := Parse_inert influxdb Parser.fresh s hf
      ((getObisReference_none_iff s).2 (h s (List.mem_cons_self _ _)))
    obtain ⟨t2, h2⟩ := ih (fun x hx => h x (List.mem_cons_of_mem _ hx))
    exact ⟨t1 ++ t2, feed_cons_ok influxdb _ _ _ s rest t1 t2 h1 h2⟩

/-- C10, at the lines `(12.5)`, `!1234`, the empty line and `/header`. -/
theorem C10_no_code_seen_is_inert_witness :
    (∀ s ∈ ["(12.5)", "!1234", "", "/header"], ¬ HasObisCode s.data) ∧
    ∃ t, feed accepting Parser.fresh ["(12.5)", "!1234", "", "/header"] =
      .ok (Parser.fresh, t) := by
  have h : ∀ s ∈ ["(12.5)", "!1234", "", "/header"], ¬ HasObisCode s.data := by
    intro s hs
    simp only [List.mem_cons, List.mem_singleton, List.not_mem_nil, or_false] at hs
    rcases hs with rfl | rfl | rfl | rfl <;>
      exact (getObisReference_none_iff _).1 (by rfl)
  exact ⟨h, C10_no_code_seen_is_inert accepting _ h⟩

/-- C11.  On every parser state, a line in which `getObisReference` finds a code that is
none of the seven codes of the `switch` makes `Parse` return normally with every field of
the accumulator unchanged, whatever value the line carries; the code becomes the
context. -/
theorem C11_unrecognised_code_skipped (influxdb : Handler) (p : Parser) (s c : String)
    (ho : getObisReference s = .ok (c, true)) (hc : c ∉ recognisedCodes) :
    ∃ t, Parse influxdb p s = .ok ({ obisReference := c, data := p.data }, t) := by
  obtain ⟨a, as, hd⟩ := data_cons_of_code s c ho
  obtain ⟨v, hv⟩ := GetValue_ok s
  have h := Parse_cons influxdb p s a as c true v hd ho hv
  simp only [if_true, setField_of_not_mem c v p.data hc] at h
  exact ⟨_, h⟩

/-- C11, at the line `0-0:96.1.1(4530303.5)` and a parser that holds
delivered_low = 12972.117 under the context `1-0:1.8.1`. -/
theorem C11_unrecognised_code_skipped_witness :
    (getObisReference "0-0:96.1.1(4530303.5)" = .ok ("0-0:96.1.1", true) ∧
      "0-0:96.1.1" ∉ recognisedCodes) ∧
    ∃ t, Parse accepting
        { obisReference := "1-0:1.8.1", data := ⟨"", 12972117 / 1000, 0, 0, 0, 0, 0, 0, ""⟩ }
        "0-0:96.1.1(4530303.5)" =
      .ok ({ obisReference := "0-0:96.1.1",
             data := ⟨"", 12972117 / 1000, 0, 0, 0, 0, 0, 0, ""⟩ }, t) :=
  ⟨⟨by rfl, by decide⟩,
    C11_unrecognised_code_skipped accepting
      { obisReference := "1-0:1.8.1", data := ⟨"", 12972117 / 1000, 0, 0, 0, 0, 0, 0, ""⟩ }
      "0-0:96.1.1(4530303.5)" "0-0:96.1.1" (by rfl) (by decide)⟩

/-- C14.  On every parser state and every string, the empty one included, `Parse` returns
normally; on the empty string it returns at once with the state unchanged, so that the
index `s[0]` is evaluated on non-empty strings only; and neither `getObisReference` nor
`GetValue` panics on any string. -/
theorem C14_fail_open_totality (influxdb : Handler) (p : Parser) (s : String) :
    (∃ q t, Parse influxdb p s = .ok (q, t)) ∧
    (s.data = [] → Parse influxdb p s = .ok (p, [])) ∧
    (s.data ≠ [] → ∃ c, index s.data 0 = .ok c) ∧
    (∃ r, getObisReference s = .ok r) ∧
    (∃ v, GetValue s = .ok v) := by
  refine ⟨Parse_ok influxdb p s, Parse_empty influxdb p s, ?_, ?_, GetValue_ok s⟩
  · intro h
    cases hd : s.data with
    | nil => exact absurd hd h
    | cons a as => exact ⟨a, rfl⟩
  · rcases getObisReference_cases s with h | ⟨id, h⟩
    · exact ⟨_, h⟩
    · exact ⟨_, h⟩

/-- C15.  On every parser state and every line that begins with `!`, whatever the sink
returns for each call, `Parse` returns normally, its sink calls are the electricity
call and then the gas call, and the parser state it leaves is the one it leaves with a
sink that accepts both calls. -/
theorem C15_sink_failure_does_not_abort (influxdb : Handler) (p : Parser) (s : String)
    (hs : s.data.head? = some '!') :
    ∃ q t t0, Parse influxdb p s = .ok (q, t) ∧
      inserts t = [electricityCall q.data, gasCall q.data] ∧
      Parse accepting p s = .ok (q, t0) := by
  obtain ⟨q, t, h⟩ := Parse_ok influxdb p s
  obtain ⟨t0, h0⟩ := Parse_state_sink_independent influxdb accepting p q s t h
  exact ⟨q, t, t0, h, Parse_terminator influxdb p q s t hs h, h0⟩

/-- C15, at the terminator `!1234` and a sink that fails on every call. -/
theorem C15_sink_failure_does_not_abort_witness :
    "!1234".data.head? = some '!' ∧
    ∃ q t t0, Parse (fun _ => some "connection refused") Parser.fresh "!1234" = .ok (q, t) ∧
      inserts t = [electricityCall q.data, gasCall q.data] ∧
      Parse accepting Parser.fresh "!1234" = .ok (q, t0) :=
  ⟨by rfl, C15_sink_failure_does_not_abort (fun _ => some "connection refused") Parser.fresh
    "!1234" (by rfl)⟩

/-- C18.  On every parser state and every line that does not begin with `!` and in which
`getObisReference` finds the code `c`, `Parse` makes no sink call, takes `c` as context
and, when `c` is one of the seven codes, assigns the value of the line to the field of
`c` and leaves the other fields, numeric and timestamp, unchanged: DeliveredToClientTariff1
for `1-0:1.8.1`, DeliveredToClientTariff2 for `1-0:1.8.2`, DeliveredByClientTariff1 for
`1-0:2.8.1`, DeliveredByClientTariff2 for `1-0:2.8.2`, DeliveredToClientCurrent for
`1-0:1.7.0`, DeliveredByClientCurrent for `1-0:2.7.0`, DeliveredToClientGas for
`0-1:24.3.0`. -/
theorem C18_registry_mapping_with_frame (influxdb : Handler) (p : Parser) (s c : String)
    (ho : getObisReference s = .ok (c, true)) (hb : s.data.head? ≠ some '!') :
    ∃ v, GetValue s = .ok v ∧
      (c = "1-0:1.8.1" → Parse influxdb p s =
        .ok ({ obisReference := c, data := { p.data with DeliveredToClientTariff1 := v } }, [])) ∧
      (c = "1-0:1.8.2" → Parse influxdb p s =
        .ok ({ obisReference := c, data := { p.data with DeliveredToClientTariff2 := v } }, [])) ∧
      (c = "1-0:2.8.1" → Parse influxdb p s =
        .ok ({ obisReference := c, data := { p.data with DeliveredByClientTariff1 := v } }, [])) ∧
      (c = "1-0:2.8.2" → Parse influxdb p s =
        .ok ({ obisReference := c, data := { p.data with DeliveredByClientTariff2 := v } }, [])) ∧
      (c = "1-0:1.7.0" → Parse influxdb p s =
        .ok ({ obisReference := c, data := { p.data with DeliveredToClientCurrent := v } }, [])) ∧
      (c = "1-0:2.7.0" → Parse influxdb p s =
        .ok ({ obisReference := c, data := { p.data with DeliveredByClientCurrent := v } }, [])) ∧
      (c = "0-1:24.3.0" → Parse influxdb p s =
        .ok ({ obisReference := c, data := { p.data with DeliveredToClientGas := v } }, [])) := by
  obtain ⟨a, as, hd⟩ := data_cons_of_code s c ho
  obtain ⟨v, hv⟩ := GetValue_ok s
  have ha : a ≠ '!' := by simpa [hd] using hb
  have h := Parse_cons influxdb p s a as c true v hd ho hv
  simp only [if_true, ha, if_false] at h
  refine ⟨v, hv, ?_, ?_, ?_, ?_, ?_, ?_, ?_⟩ <;> intro hc <;> subst hc <;>
    simpa [setField] using h

/-- C18, at the line `1-0:1.7.0(0000.43*kW)` and the fresh parser. -/
theorem C18_registry_mapping_with_frame_witness :
    (getObisReference "1-0:1.7.0(0000.43*kW)" = .ok ("1-0:1.7.0", true) ∧
      "1-0:1.7.0(0000.43*kW)".data.head? ≠ some '!') ∧
    ∃ v, GetValue "1-0:1.7.0(0000.43*kW)" = .ok v ∧
      ("1-0:1.7.0" = "1-0:1.8.1" → Parse accepting Parser.fresh "1-0:1.7.0(0000.43*kW)" =
        .ok ({ obisReference := "1-0:1.7.0",
               data := { Parser.fresh.data with DeliveredToClientTariff1 := v } }, [])) ∧
      ("1-0:1.7.0" = "1-0:1.8.2" → Parse accepting Parser.fresh "1-0:1.7.0(0000.43*kW)" =
        .ok ({ obisReference := "1-0:1.7.0",
               data := { Parser.fresh.data with DeliveredToClientTariff2 := v } }, [])) ∧
      ("1-0:1.7.0" = "1-0:2.8.1" → Parse accepting Parser.fresh "1-0:1.7.0(0000.43*kW)" =
        .ok ({ obisReference := "1-0:1.7.0",
               data := { Parser.fresh.data with DeliveredByClientTariff1 := v } }, [])) ∧
      ("1-0:1.7.0" = "1-0:2.8.2" → Parse accepting Parser.fresh "1-0:1.7.0(0000.43*kW)" =
        .ok ({ obisReference := "1-0:1.7.0",
               data := { Parser.fresh.data with DeliveredByClientTariff2 := v } }, [])) ∧
      ("1-0:1.7.0" = "1-0:1.7.0" → Parse accepting Parser.fresh "1-0:1.7.0(0000.43*kW)" =
        .ok ({ obisReference := "1-0:1.7.0",
               data := { Parser.fresh.data with DeliveredToClientCurrent := v } }, [])) ∧
      ("1-0:1.7.0" = "1-0:2.7.0" → Parse accepting Parser.fresh "1-0:1.7.0(0000.43*kW)" =
        .ok ({ obisReference := "1-0:1.7.0",
               data := { Parser.fresh.data with DeliveredByClientCurrent := v } }, [])) ∧
      ("1-0:1.7.0" = "0-1:24.3.0" → Parse accepting Parser.fresh "1-0:1.7.0(0000.43*kW)" =
        .ok ({ obisReference := "1-0:1.7.0",
               data := { Parser.fresh.data with DeliveredToClientGas := v } }, [])) :=
  ⟨⟨by rfl, by decide⟩,
    C18_registry_mapping_with_frame accepting Parser.fresh "1-0:1.7.0(0000.43*kW)" "1-0:1.7.0"
      (by rfl) (by decide)⟩

/-- C20.  On every parser state whose context is one of the seven codes and every line
that begins with `!` and contains no OBIS code, `Parse` keeps the context, assigns the
value of the terminator line to the field of the context, and builds its two sink calls
from the accumulator so overwritten; that value is 0 when the line has no decimal group,
as for `!` and `!1234`. -/
theorem C20_terminator_runs_through_switch (influxdb : Handler) (p : Parser) (t : String)
    (hc : p.obisReference ∈ recognisedCodes) (ht : t.data.head? = some '!')
    (ho : ¬ HasObisCode t.data) :
    ∃ v tr, GetValue t = .ok v ∧
      Parse influxdb p t =
        .ok ({ obisReference := p.obisReference,
               data := setField p.obisReference v p.data }, tr) ∧
      fieldOf p.obisReference (setField p.obisReference v p.data) = some v ∧
      inserts tr = [electricityCall (setField p.obisReference v p.data),
                    gasCall (setField p.obisReference v p.data)] ∧
      (¬ HasDecimal t.data → v = 0) := by
  obtain ⟨v, hv⟩ := GetValue_ok t
  have ho1 := (getObisReference_none_iff t).2 ho
  cases hd : t.data with
  | nil => simp [hd] at ht
  | cons a as =>
    have h := Parse_cons influxdb p t a as "" false v hd ho1 hv
    simp only [Bool.false_eq_true, if_false] at h
    refine ⟨v, _, hv, h, fieldOf_setField_self _ v p.data hc, ?_, ?_⟩
    · simpa using Parse_terminator influxdb p _ t _ (by simp [hd] at ht ⊢; exact ht) h
    · intro hn
      have h0 := GetValue_of_no_match t ((valuePattern_no_match_iff t).2 (by rw [hd]; exact hn))
      rw [hv] at h0
      simpa using h0

/-- C20, at the parser that has read `0-1:24.3.0(201024220000S)(08950.179)` and the
terminator `!1234`. -/
theorem C20_terminator_runs_through_switch_witness :
    ("0-1:24.3.0" ∈ recognisedCodes ∧ "!1234".data.head? = some '!' ∧
      ¬ HasObisCode "!1234".data) ∧
    ∃ v tr, GetValue "!1234" = .ok v ∧
      Parse accepting
          { obisReference := "0-1:24.3.0",
            data := ⟨"", 0, 0, 0, 0, 0, 0, 8950179 / 1000, ""⟩ } "!1234" =
        .ok ({ obisReference := "0-1:24.3.0",
               data := setField "0-1:24.3.0" v ⟨"", 0, 0, 0, 0, 0, 0, 8950179 / 1000, ""⟩ }, tr) ∧
      fieldOf "0-1:24.3.0"
        (setField "0-1:24.3.0" v ⟨"", 0, 0, 0, 0, 0, 0, 8950179 / 1000, ""⟩) = some v ∧
      inserts tr =
        [electricityCall (setField "0-1:24.3.0" v ⟨"", 0, 0, 0, 0, 0, 0, 8950179 / 1000, ""⟩),
         gasCall (setField "0-1:24.3.0" v ⟨"", 0, 0, 0, 0, 0, 0, 8950179 / 1000, ""⟩)] ∧
      (¬ HasDecimal "!1234".data → v = 0) :=
  ⟨⟨by simp [recognisedCodes], by rfl, (getObisReference_none_iff "!1234").1 (by rfl)⟩,
    C20_terminator_runs_through_switch accepting
      { obisReference := "0-1:24.3.0", data := ⟨"", 0, 0, 0, 0, 0, 0, 8950179 / 1000, ""⟩ }
      "!1234" (by simp [recognisedCodes]) (by rfl)
      ((getObisReference_none_iff "!1234").1 (by rfl))⟩

/-- C13.  On every parser state, a telegram (a list of lines of which the last, and only
the last, begins with `!`) fed twice in succession produces, each time, exactly one
electricity call and one gas call, and the two times with the same field values: the second
run ends in the very parser state the first run ended in, and both snapshots are built
from its accumulator. -/
theorem C13_idempotence (influxdb : Handler) (p : Parser) (body : List String) (t : String)
    (hbody : ∀ s ∈ body, s.data.head? ≠ some '!') (ht : t.data.head? = some '!') :
    ∃ q u1 u2, feed influxdb p (body ++ [t]) = .ok (q, u1) ∧
      feed influxdb q (body ++ [t]) = .ok (q, u2) ∧
      inserts u1 = [electricityCall q.data, gasCall q.data] ∧
      inserts u2 = [electricityCall q.data, gasCall q.data] := by
  have hne : t.data ≠ [] := by
    intro h
    simp [h] at ht
  obtain ⟨q, u1, u2, h1, h2⟩ := feed_twice influxdb body t p hne
  have key : ∀ (p0 : Parser) (u : List Effect), feed influxdb p0 (body ++ [t]) = .ok (q, u) →
      inserts u = [electricityCall q.data, gasCall q.data] := by
    intro p0 u h
    obtain ⟨p1, w1, e1⟩ := feed_ok influxdb body p0
    obtain ⟨p2, w2, e2⟩ := Parse_ok influxdb p1 t
    have e3 := feed_append_ok influxdb body [t] p0 p1 p2 w1 (w2 ++ []) e1
      (feed_cons_ok influxdb p1 p2 p2 t [] w2 [] e2 rfl)
    rw [h] at e3
    simp only [Except.ok.injEq, Prod.mk.injEq] at e3
    obtain ⟨rfl, rfl⟩ := e3
    have hb : inserts w1 = [] := feed_no_terminator influxdb body p0 p1 w1 hbody e1
    simp [inserts_append, hb, Parse_terminator influxdb p1 _ t w2 ht e2]
  exact ⟨q, u1, u2, h1, h2, key p u1 h1, key q u2 h2⟩

/-- C13, at the telegram `/header`, `1-0:1.8.1(12972.117)`, `1-0:2.8.1(00746.379)`,
`0-1:24.3.0(201024220000S)(08950.179)`, `!1234` and the fresh parser. -/
theorem C13_idempotence_witness :
    ((∀ s ∈ ["/header", "1-0:1.8.1(12972.117)", "1-0:2.8.1(00746.379)",
        "0-1:24.3.0(201024220000S)(08950.179)"], s.data.head? ≠ some '!') ∧
      "!1234".data.head? = some '!') ∧
    ∃ q u1 u2,
      feed accepting Parser.fresh
        (["/header", "1-0:1.8.1(12972.117)", "1-0:2.8.1(00746.379)",
          "0-1:24.3.0(201024220000S)(08950.179)"] ++ ["!1234"]) = .ok (q, u1) ∧
      feed accepting q
        (["/header", "1-0:1.8.1(12972.117)", "1-0:2.8.1(00746.379)",
          "0-1:24.3.0(201024220000S)(08950.179)"] ++ ["!1234"]) = .ok (q, u2) ∧
      inserts u1 = [electricityCall q.data, gasCall q.data] ∧
      inserts u2 = [electricityCall q.data, gasCall q.data] :=
  ⟨⟨by decide, by rfl⟩,
    C13_idempotence accepting Parser.fresh
      ["/header", "1-0:1.8.1(12972.117)", "1-0:2.8.1(00746.379)",
        "0-1:24.3.0(201024220000S)(08950.179)"] "!1234" (by decide) (by rfl)⟩

/-- C12 (counterexample).  The line `1-0:1.8.1(1.5)(2.5)` has two decimal groups, `(1.5)`
first and `(2.5)` last.  `GetValue` returns 2.5, the value of the last group, not 1.5. -/
theorem C12_last_group_returned :
    GetValue "1-0:1.8.1(1.5)(2.5)" = .ok (25 / 10) ∧
    decimalValue ['1'] ['5'] = 15 / 10 ∧ (25 / 10 : Float64) ≠ 15 / 10 := by
  refine ⟨by rfl, by rfl, by norm_num⟩

/-- C12 (amended).  When a string has one or more decimal groups and no newline before
the last of them, `GetValue` returns the value of that last, rightmost group, whatever
groups precede it: the group `(d1.d2` closed by `*` or `)` after which no decimal group
begins.  The value is zero when that numeral is beyond the binary64 range. -/
theorem C12_value_of_last_group (s : String) (pre d1 d2 post : List Char) (x : Char)
    (hs : s.data = pre ++ '(' :: (d1 ++ '.' :: (d2 ++ x :: post)))
    (hpre : '\n' ∉ pre) (h1 : IsDigits d1) (h2 : IsDigits d2) (hx : x = '*' ∨ x = ')')
    (hlast : ¬ HasDecimal post) :
    GetValue s = .ok (if InRange d1 d2 then decimalValue d1 d2 else 0) :=
  GetValue_last_group s pre d1 d2 post x hs hpre h1 h2 hx
    (not_HasDecimal_numeral d1 d2 post x h1 h2 hx hlast)

/-- C12 (amended), at the line `1-0:1.8.1(1.5)(2.5)`, whose last group is `(2.5)`. -/
theorem C12_value_of_last_group_witness :
    ("1-0:1.8.1(1.5)(2.5)".data = "1-0:1.8.1(1.5)".data ++ '(' :: (['2'] ++ '.' :: (['5'] ++ ')' :: [])) ∧
      '\n' ∉ "1-0:1.8.1(1.5)".data ∧ IsDigits ['2'] ∧ IsDigits ['5'] ∧ (')' = '*' ∨ ')' = ')') ∧
      ¬ HasDecimal []) ∧
    GetValue "1-0:1.8.1(1.5)(2.5)" =
      .ok (if InRange ['2'] ['5'] then decimalValue ['2'] ['5'] else 0) :=
  ⟨⟨by rfl, by decide, by decide, by decide, Or.inr rfl,
      not_HasDecimal_of_no_paren [] (by simp)⟩,
    C12_value_of_last_group "1-0:1.8.1(1.5)(2.5)" "1-0:1.8.1(1.5)".data ['2'] ['5'] [] ')'
      (by rfl) (by decide) (by decide) (by decide) (Or.inr rfl)
      (not_HasDecimal_of_no_paren [] (by simp))⟩

/-- C16 (counterexample).  The line `1-0:1.8.1(` then the numeral 2 followed by 308 zeros,
`.0`, and `*kWh)` has one parenthesised group, of the form `(D*U)`.  `GetValue` returns 0,
while `D` denotes 2·10^308, which is not zero: the numeral is beyond the binary64 range
and `strconv.ParseFloat` reports `ErrRange`. -/
theorem C16_numeral_out_of_range :
    GetValue ⟨"1-0:1.8.1".data ++
        '(' :: (('2' :: List.replicate 308 '0') ++ '.' :: (['0'] ++ '*' :: "kWh)".data))⟩ =
      .ok 0 ∧
    decimalValue ('2' :: List.replicate 308 '0') ['0'] = 2 * 10 ^ 308 ∧
    (2 * 10 ^ 308 : Float64) ≠ 0 := by
  have hd : IsDigits ('2' :: List.replicate 308 '0') := by
    refine ⟨List.cons_ne_nil _ _, ?_⟩
    intro c hc
    rcases List.mem_cons.1 hc with rfl | hc
    · rfl
    · rw [List.eq_of_mem_replicate hc]; rfl
  have hv : digitsValue (('2' :: List.replicate 308 '0') ++ ['0']) = 2 * 10 ^ 308 * 10 := by
    have e2 : '2'.toNat - '0'.toNat = 2 := by decide
    have e0 : '0'.toNat - '0'.toNat = 0 := by decide
    unfold digitsValue
    simp only [List.foldl_append, List.foldl_cons, List.foldl_nil, foldl_replicate_zero, e2, e0]
    ring
  have hr : ¬ InRange ('2' :: List.replicate 308 '0') ['0'] := by
    unfold InRange
    rw [hv]
    norm_num [Nat.shiftLeft_eq]
  refine ⟨?_, ?_, by positivity⟩
  · have h := GetValue_last_group
      ⟨"1-0:1.8.1".data ++
        '(' :: (('2' :: List.replicate 308 '0') ++ '.' :: (['0'] ++ '*' :: "kWh)".data))⟩
      "1-0:1.8.1".data ('2' :: List.replicate 308 '0') ['0'] "kWh)".data '*' rfl (by decide)
      hd (by decide) (Or.inl rfl)
      (not_HasDecimal_numeral _ _ _ _ hd (by decide) (Or.inl rfl)
        (not_HasDecimal_of_no_paren _ (by decide)))
    rw [if_neg hr] at h
    exact h
  · unfold decimalValue
    rw [hv]
    norm_num

/-- C16 (amended).  When the text after the group `(D` closed by `*` or `)`, with `D` the
numeral `d1.d2`, has no further `(` and the line has no newline before the group, the
value pattern captures exactly the text `D`, and `GetValue` returns what
`strconv.ParseFloat` yields for `D`, or zero when that reports an error, as it does for a
numeral beyond the binary64 range.  The result is that of the bare group `(D)`, whatever
the prefix and the unit text are, and the line with one more leading zero in `D` has the
same result. -/
theorem C16_unit_suffix (s s0 : String) (pre d1 d2 post : List Char) (x : Char)
    (hs : s.data = pre ++ '(' :: (d1 ++ '.' :: (d2 ++ x :: post)))
    (hs0 : s0.data = pre ++ '(' :: (('0' :: d1) ++ '.' :: (d2 ++ x :: post)))
    (hpre : '\n' ∉ pre) (h1 : IsDigits d1) (h2 : IsDigits d2) (hx : x = '*' ∨ x = ')')
    (hpost : '(' ∉ post) :
    (∃ whole, FindStringSubmatch valuePattern s = [whole, ⟨d1 ++ '.' :: d2⟩]) ∧
    GetValue s = .ok (orZero (ParseFloat ⟨d1 ++ '.' :: d2⟩)) ∧
    GetValue s = GetValue ⟨'(' :: (d1 ++ '.' :: (d2 ++ [')']))⟩ ∧
    GetValue s0 = GetValue s ∧
    (¬ InRange d1 d2 → GetValue s = .ok 0) := by
  have hp := not_HasDecimal_of_no_paren post hpost
  have hl := not_HasDecimal_numeral d1 d2 post x h1 h2 hx hp
  obtain ⟨whole, hw⟩ := FindStringSubmatch_last_group s pre d1 d2 post x hs hpre h1 h2 hx hp
  have hv := GetValue_last_group s pre d1 d2 post x hs hpre h1 h2 hx hl
  have hbare := GetValue_last_group ⟨'(' :: (d1 ++ '.' :: (d2 ++ [')']))⟩ [] d1 d2 [] ')'
    rfl (by simp) h1 h2 (Or.inr rfl)
    (not_HasDecimal_numeral d1 d2 [] ')' h1 h2 (Or.inr rfl)
      (not_HasDecimal_of_no_paren [] (by simp)))
  have h10 : IsDigits ('0' :: d1) := by
    refine ⟨List.cons_ne_nil _ _, ?_⟩
    intro c hc
    rcases List.mem_cons.1 hc with rfl | hc
    · rfl
    · exact h1.2 c hc
  have hv0 := GetValue_last_group s0 pre ('0' :: d1) d2 post x hs0 hpre h10 h2 hx
    (not_HasDecimal_numeral ('0' :: d1) d2 post x h10 h2 hx hp)
  refine ⟨⟨whole, hw⟩, GetValue_of_capture s whole _ hw, hv.trans hbare.symm, ?_, ?_⟩
  · rw [hv0, hv, decimalValue_leading_zero]
    by_cases hr : InRange d1 d2
    · rw [if_pos hr, if_pos ((InRange_leading_zero d1 d2).2 hr)]
    · rw [if_neg hr, if_neg (fun h => hr ((InRange_leading_zero d1 d2).1 h))]
  · intro hr
    rw [hv, if_neg hr]

/-- C16 (amended), at the line `1-0:1.7.0(0000.43*kW)`, with `1-0:1.7.0(00000.43*kW)` as
the line with one more leading zero; the text captured is `0000.43`. -/
theorem C16_unit_suffix_witness :
    ("1-0:1.7.0(0000.43*kW)".data =
        "1-0:1.7.0".data ++ '(' :: ("0000".data ++ '.' :: ("43".data ++ '*' :: "kW)".data)) ∧
      "1-0:1.7.0(00000.43*kW)".data =
        "1-0:1.7.0".data ++
          '(' :: (('0' :: "0000".data) ++ '.' :: ("43".data ++ '*' :: "kW)".data)) ∧
      '\n' ∉ "1-0:1.7.0".data ∧ IsDigits "0000".data ∧ IsDigits "43".data ∧
      ('*' = '*' ∨ '*' = ')') ∧ '(' ∉ "kW)".data) ∧
    ((∃ whole, FindStringSubmatch valuePattern "1-0:1.7.0(0000.43*kW)" =
        [whole, ⟨"0000".data ++ '.' :: "43".data⟩]) ∧
      GetValue "1-0:1.7.0(0000.43*kW)" =
        .ok (orZero (ParseFloat ⟨"0000".data ++ '.' :: "43".data⟩)) ∧
      GetValue "1-0:1.7.0(0000.43*kW)" =
        GetValue ⟨'(' :: ("0000".data ++ '.' :: ("43".data ++ [')']))⟩ ∧
      GetValue "1-0:1.7.0(00000.43*kW)" = GetValue "1-0:1.7.0(0000.43*kW)" ∧
      (¬ InRange "0000".data "43".data → GetValue "1-0:1.7.0(0000.43*kW)" = .ok 0)) :=
  ⟨⟨by rfl, by rfl, by decide, by decide, by decide, Or.inl rfl, by decide⟩,
    C16_unit_suffix "1-0:1.7.0(0000.43*kW)" "1-0:1.7.0(00000.43*kW)" "1-0:1.7.0".data
      "0000".data "43".data "kW)".data '*' (by rfl) (by rfl) (by decide) (by decide)
      (by decide) (Or.inl rfl) (by decide)⟩

/-- C17 (counterexample).  On the gas line `0-1:24.3.0(201024220000S)(08950.179)` the fresh
parser records the volume 8950.179, but DeliveredToClientGasTimestamp stays the empty
string: the timestamp group `201024220000S` is not recorded. -/
theorem C17_gas_timestamp_not_recorded :
    Parse accepting Parser.fresh "0-1:24.3.0(201024220000S)(08950.179)" =
      .ok ({ obisReference := "0-1:24.3.0",
             data := { Timestamp := "", DeliveredToClientTariff1 := 0,
                       DeliveredToClientTariff2 := 0, DeliveredByClientTariff1 := 0,
                       DeliveredByClientTariff2 := 0, DeliveredToClientCurrent := 0,
                       DeliveredByClientCurrent := 0, DeliveredToClientGas := 8950179 / 1000,
                       DeliveredToClientGasTimestamp := "" } }, []) ∧
    ("" : String) ≠ "201024220000S" := by
  refine ⟨by rfl, by decide⟩

/-- C17 (amended).  On every parser state, a gas line `0-1:24.3.0(T)(V)` followed by any
text without `(`, where `T` has no newline and `V` is a decimal numeral within the
binary64 range, makes `Parse` record the number `V` denotes as DeliveredToClientGas and
nothing else: DeliveredToClientGasTimestamp, like every other field, keeps the value it
had; `T` is not recorded. -/
theorem C17_gas_volume_recorded (influxdb : Handler) (p : Parser) (s : String)
    (T d1 d2 post : List Char)
    (hs : s.data = "0-1:24.3.0".data ++
      '(' :: (T ++ ')' :: '(' :: (d1 ++ '.' :: (d2 ++ ')' :: post))))
    (hT : '\n' ∉ T) (h1 : IsDigits d1) (h2 : IsDigits d2) (hpost : '(' ∉ post)
    (hr : InRange d1 d2) :
    Parse influxdb p s =
      .ok ({ obisReference := "0-1:24.3.0",
             data := { p.data with DeliveredToClientGas := decimalValue d1 d2 } }, []) := by
  have ho : getObisReference s = .ok ("0-1:24.3.0", true) := by
    rw [String_eq_of_data s _ hs]
    exact getObisReference_of_prefix "0-1:24.3.0" _ (by simp [recognisedCodes])
  have hv : GetValue s = .ok (decimalValue d1 d2) := by
    have h := GetValue_last_group s ("0-1:24.3.0".data ++ '(' :: (T ++ [')'])) d1 d2 post ')'
      (by simp [hs]) (by
        intro hm
        simp only [List.mem_append, List.mem_cons, List.mem_singleton, List.not_mem_nil,
          or_false] at hm
        rcases hm with hm | hm | hm | hm
        · revert hm; decide
        · revert hm; decide
        · exact hT hm
        · revert hm; decide) h1 h2 (Or.inr rfl)
      (not_HasDecimal_numeral d1 d2 post ')' h1 h2 (Or.inr rfl)
        (not_HasDecimal_of_no_paren post hpost))
    rw [if_pos hr] at h
    exact h
  have h := Parse_cons influxdb p s '0' _ "0-1:24.3.0" true (decimalValue d1 d2) hs ho hv
  simpa [setField] using h

/-- C17 (amended), at the gas line `0-1:24.3.0(201024220000S)(08950.179)`. -/
theorem C17_gas_volume_recorded_witness :
    ("0-1:24.3.0(201024220000S)(08950.179)".data = "0-1:24.3.0".data ++
        '(' :: ("201024220000S".data ++ ')' :: '(' ::
          ("08950".data ++ '.' :: ("179".data ++ ')' :: []))) ∧
      '\n' ∉ "201024220000S".data ∧ IsDigits "08950".data ∧ IsDigits "179".data ∧
      '(' ∉ ([] : List Char) ∧ InRange "08950".data "179".data) ∧
    Parse accepting Parser.fresh "0-1:24.3.0(201024220000S)(08950.179)" =
      .ok ({ obisReference := "0-1:24.3.0",
             data := { Parser.fresh.data with
                       DeliveredToClientGas := decimalValue "08950".data "179".data } }, []) :=
  ⟨⟨by rfl, by decide, by decide, by decide, by decide, by decide⟩,
    C17_gas_volume_recorded accepting Parser.fresh "0-1:24.3.0(201024220000S)(08950.179)"
      "201024220000S".data "08950".data "179".data [] (by rfl) (by decide) (by decide)
      (by decide) (by decide) (by decide)⟩

/-- C19.  On every parser state and every line: when the line contains no OBIS code
followed by `(`, the context after `Parse` is the context held before; when it contains
one, the context after `Parse` is the code `getObisReference` extracts, whatever context
was held before; that code is the one that begins at the leftmost place of the line where
an OBIS code followed by `(` begins; and after any list of lines the context is the code
extracted from the most recent line that has one, or the initial context when none
has. -/
theorem C19_context_tracking (influxdb : Handler) (p : Parser) (s : String) :
    (¬ HasObisCode s.data →
      ∃ q t, Parse influxdb p s = .ok (q, t) ∧ q.obisReference = p.obisReference) ∧
    (HasObisCode s.data →
      ∃ id q t, getObisReference s = .ok (id, true) ∧ Parse influxdb p s = .ok (q, t) ∧
        q.obisReference = id) ∧
    (∀ pre a b c d e post, s.data = pre ++ (obisText a b c d e ++ '(' :: post) →
      IsDigits a → IsDigits b → IsDigits c → IsDigits d → IsDigits e →
      (∀ p1 p2, pre = p1 ++ p2 → p2 ≠ [] →
        ¬ BeginsWithObisCode (p2 ++ (obisText a b c d e ++ '(' :: post))) →
      getObisReference s = .ok (⟨obisText a b c d e⟩, true)) ∧
    (∀ ls, ∃ q t, feed influxdb p ls = .ok (q, t) ∧
      q.obisReference = finalContext p.obisReference ls) := by
  refine ⟨?_, ?_, ?_, fun ls => feed_context influxdb ls p⟩
  · intro h
    have ho := (getObisReference_none_iff s).2 h
    obtain ⟨v, hv⟩ := GetValue_ok s
    cases hd : s.data with
    | nil => exact ⟨p, [], Parse_empty influxdb p s hd, rfl⟩
    | cons x xs => exact ⟨_, _, Parse_cons influxdb p s x xs "" false v hd ho hv, by simp⟩
  · intro h
    rcases getObisReference_cases s with ho | ⟨id, ho⟩
    · exact absurd h ((getObisReference_none_iff s).1 ho)
    · obtain ⟨x, xs, hd⟩ := data_cons_of_code s id ho
      obtain ⟨v, hv⟩ := GetValue_ok s
      exact ⟨id, _, _, ho, Parse_cons influxdb p s x xs id true v hd ho hv, by simp⟩
  · intro pre a b c d e post hs ha hb hc hd he hleft
    exact getObisReference_leftmost s pre a b c d e post hs ha hb hc hd he hleft

/-- C19, at the line `1-0:1.8.1(12972.117)`, where the code begins the line, and at the
lines `1-0:1.8.1(12972.117)`, `(5.5)`, `0-0:96.1.1(4530303.5)`, `!1234`, after which the
context is `0-0:96.1.1`. -/
theorem C19_context_tracking_witness :
    getObisReference "1-0:1.8.1(12972.117)" = .ok (⟨obisText ['1'] ['0'] ['1'] ['8'] ['1']⟩, true) ∧
    ∃ q t, feed accepting Parser.fresh
        ["1-0:1.8.1(12972.117)", "(5.5)", "0-0:96.1.1(4530303.5)", "!1234"] = .ok (q, t) ∧
      q.obisReference = finalContext Parser.fresh.obisReference
        ["1-0:1.8.1(12972.117)", "(5.5)", "0-0:96.1.1(4530303.5)", "!1234"] :=
  ⟨(C19_context_tracking accepting Parser.fresh "1-0:1.8.1(12972.117)").2.2.1
      [] ['1'] ['0'] ['1'] ['8'] ['1'] "12972.117)".data (by rfl) (by decide) (by decide)
      (by decide) (by decide) (by decide)
      (fun p1 p2 e hne => absurd (List.append_eq_nil.1 e.symm).2 hne),
    (C19_context_tracking accepting Parser.fresh "1-0:1.8.1(12972.117)").2.2.2 _⟩

end P1
